import Mathlib

/-!
# uint128_t (single_include/uint128_t.h)

A shallow embedding of the class `ap_uint::uint128_t`: two 64-bit unsigned limbs
`UPPER` and `LOWER`, and the member operators layered on them.

Machine integers are natural numbers; every `uint64_t` operation of the source that
can wrap is written with an explicit reduction modulo `2 ^ 64`.  A value of the class
is well formed (`wf`) when both limbs are below `2 ^ 64`.
-/

namespace ap_uint

/-! ## 64-bit machine arithmetic -/

/-- Wrapping `uint64_t` addition. -/
def add64 (x y : Nat) : Nat := (x + y) % 2 ^ 64

/-- Wrapping `uint64_t` subtraction. -/
def sub64 (x y : Nat) : Nat := (x + 2 ^ 64 - y) % 2 ^ 64

/-- Wrapping `uint64_t` multiplication. -/
def mul64 (x y : Nat) : Nat := (x * y) % 2 ^ 64

/-- The `uint64_t` left shift `x << s` (the source only uses it with `s < 64`). -/
def shl64 (x s : Nat) : Nat := (x <<< s) % 2 ^ 64

/-- The `uint64_t` right shift `x >> s`. -/
def shr64 (x s : Nat) : Nat := x >>> s

/-- A C++ `bool` used as an integer operand. -/
def b2n (b : Bool) : Nat := if b then 1 else 0

/-- The two exceptions the class throws. -/
inductive Exn where
  | domain_error
  | invalid_argument
deriving DecidableEq, Repr

/-! ## The class -/

/-- The members `uint64_t UPPER, LOWER` of `class uint128_t`. -/
structure uint128_t where
  UPPER : Nat
  LOWER : Nat
deriving DecidableEq, Repr

namespace uint128_t

/-- Both limbs are `uint64_t` values. -/
def wf (a : uint128_t) : Prop := a.UPPER < 2 ^ 64 ∧ a.LOWER < 2 ^ 64

instance (a : uint128_t) : Decidable (wf a) := by
  unfold wf
  exact inferInstance

/-- The number a value stands for: `UPPER * 2 ^ 64 + LOWER`. -/
def value (a : uint128_t) : Nat := a.UPPER * 2 ^ 64 + a.LOWER

/-- The static member `uint128_0()`: `uint128_t(0, 0)`. -/
def uint128_0 : uint128_t := ⟨0, 0⟩

/-- The static member `uint128_1()`: `uint128_t(0, 1)`. -/
def uint128_1 : uint128_t := ⟨0, 1⟩

/-- The widening constructor `uint128_t(const T & rhs)`, `rhs` already converted to
`uint64_t`: `UPPER(0), LOWER(rhs)`. -/
def ofT (rhs : Nat) : uint128_t := ⟨0, rhs % 2 ^ 64⟩

/-- The conversion `operator bool()`: `(bool) (UPPER | LOWER)`. -/
def operator_bool (a : uint128_t) : Bool := decide ((a.UPPER ||| a.LOWER) ≠ 0)

/-- The member `operator!()`: `!(bool) (UPPER | LOWER)`. -/
def operator_not (a : uint128_t) : Bool := !decide ((a.UPPER ||| a.LOWER) ≠ 0)

/-- The conversion `operator uint8_t()`: `(uint8_t) LOWER`. -/
def operator_uint8_t (a : uint128_t) : Nat := a.LOWER % 2 ^ 8

/-- The template member `operator&(const T & rhs)`:
`uint128_t(0, LOWER & (uint64_t) rhs)`. -/
def operator_and_T (a : uint128_t) (rhs : Nat) : uint128_t :=
  ⟨0, a.LOWER &&& (rhs % 2 ^ 64)⟩

/-! ### Bit shift operators -/

/-- The member `operator<<(const uint128_t & rhs)`. -/
def operator_shl (a rhs : uint128_t) : uint128_t :=
  let shift := rhs.LOWER
  if rhs.UPPER ≠ 0 ∨ shift ≥ 128 then uint128_0
  else if shift = 64 then ⟨a.LOWER, 0⟩
  else if shift = 0 then a
  else if shift < 64 then
    ⟨add64 (shl64 a.UPPER shift) (shr64 a.LOWER (64 - shift)), shl64 a.LOWER shift⟩
  else if 128 > shift ∧ shift > 64 then ⟨shl64 a.LOWER (shift - 64), 0⟩
  else uint128_0

/-- The member `operator>>(const uint128_t & rhs)`. -/
def operator_shr (a rhs : uint128_t) : uint128_t :=
  let shift := rhs.LOWER
  if rhs.UPPER ≠ 0 ∨ shift ≥ 128 then uint128_0
  else if shift = 64 then ⟨0, a.UPPER⟩
  else if shift = 0 then a
  else if shift < 64 then
    ⟨shr64 a.UPPER shift, add64 (shl64 a.UPPER (64 - shift)) (shr64 a.LOWER shift)⟩
  else if 128 > shift ∧ shift > 64 then ⟨0, shr64 a.UPPER (shift - 64)⟩
  else uint128_0

/-- The template member `operator>>(const T & rhs)`: `*this >> uint128_t(rhs)`. -/
def operator_shr_T (a : uint128_t) (rhs : Nat) : uint128_t := operator_shr a (ofT rhs)

/-! ### Comparison operators -/

/-- The member `operator==(const uint128_t & rhs)`. -/
def operator_eq (a rhs : uint128_t) : Bool :=
  decide (a.UPPER = rhs.UPPER) && decide (a.LOWER = rhs.LOWER)

/-- The member `operator!=(const uint128_t & rhs)`. -/
def operator_ne (a rhs : uint128_t) : Bool :=
  decide (a.UPPER ≠ rhs.UPPER) || decide (a.LOWER ≠ rhs.LOWER)

/-- The member `operator>(const uint128_t & rhs)`. -/
def operator_gt (a rhs : uint128_t) : Bool :=
  if a.UPPER = rhs.UPPER then decide (a.LOWER > rhs.LOWER)
  else decide (a.UPPER > rhs.UPPER)

/-- The member `operator<(const uint128_t & rhs)`. -/
def operator_lt (a rhs : uint128_t) : Bool :=
  if a.UPPER = rhs.UPPER then decide (a.LOWER < rhs.LOWER)
  else decide (a.UPPER < rhs.UPPER)

/-- The member `operator>=(const uint128_t & rhs)`. -/
def operator_ge (a rhs : uint128_t) : Bool :=
  operator_gt a rhs || operator_eq a rhs

/-- The member `operator<=(const uint128_t & rhs)`. -/
def operator_le (a rhs : uint128_t) : Bool :=
  operator_lt a rhs || operator_eq a rhs

/-! ### Arithmetic operators -/

/-- The member `operator+(const uint128_t & rhs)`. -/
def operator_add (a rhs : uint128_t) : uint128_t :=
  ⟨add64 (add64 a.UPPER rhs.UPPER) (b2n (decide (add64 a.LOWER rhs.LOWER < a.LOWER))),
   add64 a.LOWER rhs.LOWER⟩

/-- The member `operator+=(const uint128_t & rhs)`; the result is the receiver after
the assignment. -/
def operator_add_assign (a rhs : uint128_t) : uint128_t :=
  let upper := add64 a.UPPER
    (add64 rhs.UPPER (b2n (decide (add64 a.LOWER rhs.LOWER < a.LOWER))))
  ⟨upper, add64 a.LOWER rhs.LOWER⟩

/-- The member `operator-(const uint128_t & rhs)`. -/
def operator_sub (a rhs : uint128_t) : uint128_t :=
  ⟨sub64 (sub64 a.UPPER rhs.UPPER) (b2n (decide (sub64 a.LOWER rhs.LOWER > a.LOWER))),
   sub64 a.LOWER rhs.LOWER⟩

/-- The member `operator-=(const uint128_t & rhs)`: `*this = *this - rhs`. -/
def operator_sub_assign (a rhs : uint128_t) : uint128_t := operator_sub a rhs

/-- The member `operator<<=(const uint128_t & rhs)`: `*this = *this << rhs`. -/
def operator_shl_assign (a rhs : uint128_t) : uint128_t := operator_shl a rhs

/-- The pre-increment `operator++()`: `*this += uint128_1()`. -/
def operator_inc (a : uint128_t) : uint128_t := operator_add_assign a uint128_1

/-- The lambda `ref` of `operator*`: `y*3+x`. -/
def ref (x y : Nat) : Nat := y * 3 + x

/-- The member `operator*(const uint128_t & rhs)`. -/
def operator_mul (a rhs : uint128_t) : uint128_t :=
  let m : Nat := 0xffffffff
  -- split values into 4 32-bit parts
  let top : List Nat :=
    [shr64 a.UPPER 32, a.UPPER &&& m, shr64 a.LOWER 32, a.LOWER &&& m]
  let bottom : List Nat :=
    [shr64 rhs.UPPER 32, rhs.UPPER &&& m, shr64 rhs.LOWER 32, rhs.LOWER &&& m]
  let t (i : Nat) : Nat := top.getD i 0
  let b (i : Nat) : Nat := bottom.getD i 0
  let products : List Nat :=
    [mul64 (t 3) (b 3), mul64 (t 3) (b 2), mul64 (t 3) (b 1), mul64 (t 3) (b 0),
     mul64 (t 2) (b 3), mul64 (t 2) (b 2), mul64 (t 2) (b 1), mul64 (t 2) (b 0),
     mul64 (t 1) (b 3), mul64 (t 1) (b 2), mul64 (t 1) (b 1), mul64 (t 1) (b 0),
     mul64 (t 0) (b 3), mul64 (t 0) (b 2), mul64 (t 0) (b 1), mul64 (t 0) (b 0)]
  let p (i : Nat) : Nat := products.getD i 0
  -- first row
  let fourth32 := p (ref 0 3) &&& m
  let third32 := add64 (p (ref 0 2) &&& m) (shr64 (p (ref 0 3)) 32)
  let second32 := add64 (p (ref 0 1) &&& m) (shr64 (p (ref 0 2)) 32)
  let first32 := add64 (p (ref 0 0) &&& m) (shr64 (p (ref 0 1)) 32)
  -- second row
  let third32 := add64 third32 (p (ref 1 3) &&& m)
  let second32 := add64 second32 (add64 (p (ref 1 2) &&& m) (shr64 (p (ref 1 3)) 32))
  let first32 := add64 first32 (add64 (p (ref 1 1) &&& m) (shr64 (p (ref 1 2)) 32))
  -- third row
  let second32 := add64 second32 (p (ref 2 3) &&& m)
  let first32 := add64 first32 (add64 (p (ref 2 2) &&& m) (shr64 (p (ref 2 3)) 32))
  -- fourth row
  let first32 := add64 first32 (p (ref 3 3) &&& m)
  -- move carry to next digit
  let third32 := add64 third32 (shr64 fourth32 32)
  let second32 := add64 second32 (shr64 third32 32)
  let first32 := add64 first32 (shr64 second32 32)
  -- remove carry from current digit
  let fourth32 := fourth32 &&& m
  let third32 := third32 &&& m
  let second32 := second32 &&& m
  let first32 := first32 &&& m
  -- combine components
  ⟨shl64 first32 32 ||| second32, shl64 third32 32 ||| fourth32⟩

/-! ### `bits`, `divmod`, `/` and `%` -/

/-- The loops `while (up){ up >>= 1; out++; }` of `bits()`; `out` is a `uint8_t`. -/
def bitsLoop (up out : Nat) : Nat :=
  if h : up ≠ 0 then bitsLoop (up >>> 1) ((out + 1) % 2 ^ 8) else out
termination_by up
decreasing_by
  simp only [Nat.shiftRight_eq_div_pow]
  omega

/-- The member `bits()`. -/
def bits (a : uint128_t) : Nat :=
  if a.UPPER ≠ 0 then bitsLoop a.UPPER 64 else bitsLoop a.LOWER 0

/-- The body of the `for` loop of `divmod`, run for `x`, `x - 1`, ..., `1`; the
iteration for `x + 1` reads bit `x` of `lhs`. -/
def divmodLoop (lhs rhs : uint128_t) : Nat → uint128_t × uint128_t → uint128_t × uint128_t
  | 0, qr => qr
  | x + 1, qr =>
    let first := operator_shl_assign qr.1 uint128_1
    let second := operator_shl_assign qr.2 uint128_1
    let second :=
      if operator_bool (operator_and_T (operator_shr_T lhs x) 1) then operator_inc second
      else second
    if operator_ge second rhs then
      divmodLoop lhs rhs x (operator_inc first, operator_sub_assign second rhs)
    else
      divmodLoop lhs rhs x (first, second)

/-- The private member `divmod(lhs, rhs)`: the pair (quotient, remainder), or the
`std::domain_error` thrown for a zero divisor. -/
def divmod (lhs rhs : uint128_t) : Except Exn (uint128_t × uint128_t) :=
  if operator_eq rhs uint128_0 then .error Exn.domain_error
  else if operator_eq rhs uint128_1 then .ok (lhs, uint128_0)
  else if operator_eq lhs rhs then .ok (uint128_1, uint128_0)
  else if operator_eq lhs uint128_0 || operator_lt lhs rhs then .ok (uint128_0, lhs)
  else .ok (divmodLoop lhs rhs (bits lhs) (uint128_0, uint128_0))

/-- The member `operator/(const uint128_t & rhs)`: `divmod(*this, rhs).first`. -/
def operator_div (a rhs : uint128_t) : Except Exn uint128_t :=
  (divmod a rhs).map Prod.fst

/-- The member `operator%(const uint128_t & rhs)`: `divmod(*this, rhs).second`. -/
def operator_mod (a rhs : uint128_t) : Except Exn uint128_t :=
  (divmod a rhs).map Prod.snd

/-! ### `str` -/

/-- The table lookup `"0123456789abcdef"[i]`; index 16 is the terminating NUL. -/
def digit (i : Nat) : Char := "0123456789abcdef".toList.getD i (Char.ofNat 0)

/-- The `do { ... } while (qr.first)` loop of `str`, run for at most `fuel` iterations:
`qr = divmod(qr.first, base); out = digit + out;`.  The result is `none` when the
iterations are used up before the loop ends, and otherwise the string built or the
exception `divmod` threw. -/
def strLoop (base : Nat) :
    Nat → uint128_t × uint128_t → String → Option (Except Exn String)
  | 0, _, _ => none
  | fuel + 1, qr, out =>
    match divmod qr.1 (ofT base) with
    | .error e => some (.error e)
    | .ok qr1 =>
      let out1 := String.singleton (digit (operator_uint8_t qr1.2)) ++ out
      if operator_bool qr1.1 then strLoop base fuel qr1 out1 else some (.ok out1)

/-- The padding at the end of `str`:
`if (out.size() < len) out = std::string(len - out.size(), '0') + out;`. -/
def pad (out : String) (len : Nat) : String :=
  if out.length < len then String.mk (List.replicate (len - out.length) '0') ++ out
  else out

/-- The member `str(base, len)` with its loop bounded by `fuel` iterations. -/
def str_fuel (fuel : Nat) (a : uint128_t) (base len : Nat) : Option (Except Exn String) :=
  if base < 2 ∨ base > 16 then some (.error Exn.invalid_argument)
  else if operator_not a then some (.ok (pad "0" len))
  else
    match strLoop base fuel (a, uint128_0) "" with
    | some (.ok out) => some (.ok (pad out len))
    | some (.error e) => some (.error e)
    | none => none

/-- The member `str(base, len)`: a 128-bit value has at most 128 digits in any base
from 2 up, so 128 iterations are enough for the loop (see `strLoop_total`). -/
def str (a : uint128_t) (base len : Nat) : Option (Except Exn String) :=
  str_fuel 128 a base len

/-! ### Bitwise operators, unary minus, increment and decrement -/

/-- The `uint64_t` complement `~x`. -/
def not64 (x : Nat) : Nat := 2 ^ 64 - 1 - x

/-- The member `operator&(const uint128_t & rhs)`. -/
def operator_and (a rhs : uint128_t) : uint128_t :=
  ⟨a.UPPER &&& rhs.UPPER, a.LOWER &&& rhs.LOWER⟩

/-- The member `operator|(const uint128_t & rhs)`. -/
def operator_or (a rhs : uint128_t) : uint128_t :=
  ⟨a.UPPER ||| rhs.UPPER, a.LOWER ||| rhs.LOWER⟩

/-- The member `operator^(const uint128_t & rhs)`. -/
def operator_xor (a rhs : uint128_t) : uint128_t :=
  ⟨a.UPPER ^^^ rhs.UPPER, a.LOWER ^^^ rhs.LOWER⟩

/-- The member `operator~()`: `uint128_t(~UPPER, ~LOWER)`. -/
def operator_compl (a : uint128_t) : uint128_t := ⟨not64 a.UPPER, not64 a.LOWER⟩

/-- The unary member `operator-()`: `~*this + uint128_1()`. -/
def operator_neg (a : uint128_t) : uint128_t := operator_add (operator_compl a) uint128_1

/-- The pre-decrement `operator--()`: `*this -= uint128_1()`. -/
def operator_dec (a : uint128_t) : uint128_t := operator_sub_assign a uint128_1

/-- The pre-increment `operator++()` as a step on the receiver: the pair
(receiver afterwards, value returned); the value returned is the receiver itself. -/
def pre_increment (a : uint128_t) : uint128_t × uint128_t :=
  let self := operator_add_assign a uint128_1
  (self, self)

/-- The post-increment `operator++(int)`: `uint128_t temp(*this); ++*this; return temp;`
as the pair (receiver afterwards, value returned). -/
def post_increment (a : uint128_t) : uint128_t × uint128_t :=
  let temp := a
  let self := (pre_increment a).1
  (self, temp)

/-- The pre-decrement `operator--()` as a step on the receiver: the pair
(receiver afterwards, value returned). -/
def pre_decrement (a : uint128_t) : uint128_t × uint128_t :=
  let self := operator_sub_assign a uint128_1
  (self, self)

/-- The post-decrement `operator--(int)`: `uint128_t temp(*this); --*this; return temp;`
as the pair (receiver afterwards, value returned). -/
def post_decrement (a : uint128_t) : uint128_t × uint128_t :=
  let temp := a
  let self := (pre_decrement a).1
  (self, temp)

/-! ### Member operators with a native right operand

The native operand `rhs` of a template member is a natural number; `rhs % 2 ^ 64` is its
conversion `(uint64_t) rhs`. -/

/-- The template member `operator|(const T & rhs)`:
`uint128_t(UPPER, LOWER | (uint64_t) rhs)`. -/
def operator_or_T (a : uint128_t) (rhs : Nat) : uint128_t :=
  ⟨a.UPPER, a.LOWER ||| (rhs % 2 ^ 64)⟩

/-- The template member `operator^(const T & rhs)`:
`uint128_t(UPPER, LOWER ^ (uint64_t) rhs)`. -/
def operator_xor_T (a : uint128_t) (rhs : Nat) : uint128_t :=
  ⟨a.UPPER, a.LOWER ^^^ (rhs % 2 ^ 64)⟩

/-- The template member `operator==(const T & rhs)`:
`(!UPPER && (LOWER == (uint64_t) rhs))`. -/
def operator_eq_T (a : uint128_t) (rhs : Nat) : Bool :=
  (!decide (a.UPPER ≠ 0)) && decide (a.LOWER = rhs % 2 ^ 64)

/-- The template member `operator!=(const T & rhs)`:
`(UPPER | (LOWER != (uint64_t) rhs))`, a `uint64_t` converted to `bool`. -/
def operator_ne_T (a : uint128_t) (rhs : Nat) : Bool :=
  decide ((a.UPPER ||| b2n (decide (a.LOWER ≠ rhs % 2 ^ 64))) ≠ 0)

/-- The template member `operator>(const T & rhs)`:
`(UPPER || (LOWER > (uint64_t) rhs))`. -/
def operator_gt_T (a : uint128_t) (rhs : Nat) : Bool :=
  decide (a.UPPER ≠ 0) || decide (a.LOWER > rhs % 2 ^ 64)

/-- The template member `operator<(const T & rhs)`:
`(!UPPER)?(LOWER < (uint64_t) rhs):false`. -/
def operator_lt_T (a : uint128_t) (rhs : Nat) : Bool :=
  if !decide (a.UPPER ≠ 0) then decide (a.LOWER < rhs % 2 ^ 64) else false

/-- The template member `operator>=(const T & rhs)`:
`((*this > rhs) | (*this == rhs))`. -/
def operator_ge_T (a : uint128_t) (rhs : Nat) : Bool :=
  operator_gt_T a rhs || operator_eq_T a rhs

/-- The template member `operator<=(const T & rhs)`:
`((*this < rhs) | (*this == rhs))`. -/
def operator_le_T (a : uint128_t) (rhs : Nat) : Bool :=
  operator_lt_T a rhs || operator_eq_T a rhs

/-- The template member `operator+(const T & rhs)`:
`uint128_t(UPPER + ((LOWER + (uint64_t) rhs) < LOWER), LOWER + (uint64_t) rhs)`. -/
def operator_add_T (a : uint128_t) (rhs : Nat) : uint128_t :=
  ⟨add64 a.UPPER (b2n (decide (add64 a.LOWER (rhs % 2 ^ 64) < a.LOWER))),
   add64 a.LOWER (rhs % 2 ^ 64)⟩

/-- The template member `operator-(const T & rhs)`:
`uint128_t((uint64_t) (UPPER - ((LOWER - rhs) > LOWER)), (uint64_t) (LOWER - rhs))`;
in `LOWER - rhs` the native operand is converted to `uint64_t` by the usual arithmetic
conversions. -/
def operator_sub_T (a : uint128_t) (rhs : Nat) : uint128_t :=
  ⟨sub64 a.UPPER (b2n (decide (sub64 a.LOWER (rhs % 2 ^ 64) > a.LOWER))),
   sub64 a.LOWER (rhs % 2 ^ 64)⟩

/-- The template member `operator*(const T & rhs)`: `*this * uint128_t(rhs)`. -/
def operator_mul_T (a : uint128_t) (rhs : Nat) : uint128_t := operator_mul a (ofT rhs)

/-! ### Free operators with a native left operand -/

/-- The free `operator&(const T & lhs, const uint128_t & rhs)`: `rhs & lhs`. -/
def free_and (lhs : Nat) (rhs : uint128_t) : uint128_t := operator_and_T rhs lhs

/-- The free `operator|(const T & lhs, const uint128_t & rhs)`: `rhs | lhs`. -/
def free_or (lhs : Nat) (rhs : uint128_t) : uint128_t := operator_or_T rhs lhs

/-- The free `operator^(const T & lhs, const uint128_t & rhs)`: `rhs ^ lhs`. -/
def free_xor (lhs : Nat) (rhs : uint128_t) : uint128_t := operator_xor_T rhs lhs

/-- The free `operator==(const T & lhs, const uint128_t & rhs)`:
`(!rhs.upper() && ((uint64_t) lhs == rhs.lower()))`. -/
def free_eq (lhs : Nat) (rhs : uint128_t) : Bool :=
  (!decide (rhs.UPPER ≠ 0)) && decide (lhs % 2 ^ 64 = rhs.LOWER)

/-- The free `operator!=(const T & lhs, const uint128_t & rhs)`:
`(rhs.upper() | ((uint64_t) lhs != rhs.lower()))`. -/
def free_ne (lhs : Nat) (rhs : uint128_t) : Bool :=
  decide ((rhs.UPPER ||| b2n (decide (lhs % 2 ^ 64 ≠ rhs.LOWER))) ≠ 0)

/-- The free `operator>(const T & lhs, const uint128_t & rhs)`:
`(!rhs.upper()) && ((uint64_t) lhs > rhs.lower())`. -/
def free_gt (lhs : Nat) (rhs : uint128_t) : Bool :=
  (!decide (rhs.UPPER ≠ 0)) && decide (lhs % 2 ^ 64 > rhs.LOWER)

/-- The free `operator<(const T & lhs, const uint128_t & rhs)`:
`if (rhs.upper()) return true; return ((uint64_t) lhs < rhs.lower());`. -/
def free_lt (lhs : Nat) (rhs : uint128_t) : Bool :=
  if rhs.UPPER ≠ 0 then true else decide (lhs % 2 ^ 64 < rhs.LOWER)

/-- The free `operator>=(const T & lhs, const uint128_t & rhs)`:
`if (rhs.upper()) return false; return ((uint64_t) lhs >= rhs.lower());`. -/
def free_ge (lhs : Nat) (rhs : uint128_t) : Bool :=
  if rhs.UPPER ≠ 0 then false else decide (lhs % 2 ^ 64 ≥ rhs.LOWER)

/-- The free `operator<=(const T & lhs, const uint128_t & rhs)`:
`if (rhs.upper()) return true; return ((uint64_t) lhs <= rhs.lower());`. -/
def free_le (lhs : Nat) (rhs : uint128_t) : Bool :=
  if rhs.UPPER ≠ 0 then true else decide (lhs % 2 ^ 64 ≤ rhs.LOWER)

/-- The free `operator+(const T & lhs, const uint128_t & rhs)`: `rhs + lhs`. -/
def free_add (lhs : Nat) (rhs : uint128_t) : uint128_t := operator_add_T rhs lhs

/-- The free `operator*(const T & lhs, const uint128_t & rhs)`: `rhs * lhs`. -/
def free_mul (lhs : Nat) (rhs : uint128_t) : uint128_t := operator_mul_T rhs lhs

/-! ### Stream insertion -/

/-- What `operator<<(std::ostream &, const uint128_t &)` reads and writes of a
`std::ostream`: whether `stream.flags() & stream.oct`, `stream.flags() & stream.dec`
and `stream.flags() & stream.hex` are non-zero, and the characters written so far. -/
structure ostream where
  oct : Bool
  dec : Bool
  hex : Bool
  written : String
deriving DecidableEq, Repr

/-- The statement `stream << s` for a `std::string`, when `str` returned `s`: the
characters of `s` are appended (the field width of the stream is taken to be 0, its
default); an exception of `str` leaves the function, as does a loop of `str` that does
not end. -/
def put (stream : ostream) : Option (Except Exn String) → Option (Except Exn ostream)
  | some (.ok s) => some (.ok ⟨stream.oct, stream.dec, stream.hex, stream.written ++ s⟩)
  | some (.error e) => some (.error e)
  | none => none

/-- The free `operator<<(std::ostream & stream, const uint128_t & rhs)`. -/
def stream_insert (stream : ostream) (rhs : uint128_t) : Option (Except Exn ostream) :=
  if stream.oct then put stream (str rhs 8 0)
  else if stream.dec then put stream (str rhs 10 0)
  else if stream.hex then put stream (str rhs 16 0)
  else some (.ok stream)

/-! ### Reading a numeral

The meaning the specification gives to a rendering: a string of digits of
`"0123456789abcdef"` read as a positional number, most significant digit first. -/

/-- The index of a character in `"0123456789abcdef"` (16 for any other character). -/
def digitValue (c : Char) : Nat := "0123456789abcdef".toList.indexOf c

/-- The number a list of digits stands for in base `base`, most significant first. -/
def readNumeral (base : Nat) (cs : List Char) : Nat :=
  cs.foldl (fun acc c => acc * base + digitValue c) 0

/-- The loop of `str` on the number itself instead of the 128-bit pair: the same
division, digit and test on natural numbers; `none` when `fuel` iterations do not
reach a zero quotient. -/
def numeralLoop (base : Nat) : Nat → Nat → String → Option String
  | 0, _, _ => none
  | fuel + 1, n, out =>
    let out1 := String.singleton (digit (n % base)) ++ out
    if n / base ≠ 0 then numeralLoop base fuel (n / base) out1 else some out1

/-! ### Construction from and conversion to native integers -/

/-- The integral conversion of a native integer `v` to `uint64_t`: `v` modulo `2 ^ 64`. -/
def to_uint64 (v : Int) : Nat := (v % 2 ^ 64).toNat

/-- The widening constructor `uint128_t(const T & rhs)` on a native integer of any
sign: `UPPER(0), LOWER(rhs)`, the initialiser of `LOWER` converting `rhs` to
`uint64_t`. -/
def uint128_T (v : Int) : uint128_t := ⟨0, to_uint64 v⟩

/-- The conversion `operator uint16_t()`: `(uint16_t) LOWER`. -/
def operator_uint16_t (a : uint128_t) : Nat := a.LOWER % 2 ^ 16

/-- The conversion `operator uint32_t()`: `(uint32_t) LOWER`. -/
def operator_uint32_t (a : uint128_t) : Nat := a.LOWER % 2 ^ 32

/-- The conversion `operator uint64_t()`: `(uint64_t) LOWER`. -/
def operator_uint64_t (a : uint128_t) : Nat := a.LOWER % 2 ^ 64

/-! ### The remaining template members and free operators -/

/-- The template member `operator<<(const T & rhs)`: `*this << uint128_t(rhs)`. -/
def operator_shl_T (a : uint128_t) (rhs : Nat) : uint128_t := operator_shl a (ofT rhs)

/-- The template member `operator/(const T & rhs)`: `*this / uint128_t(rhs)`. -/
def operator_div_T (a : uint128_t) (rhs : Nat) : Except Exn uint128_t :=
  operator_div a (ofT rhs)

/-- The template member `operator%(const T & rhs)`: `*this % uint128_t(rhs)`. -/
def operator_mod_T (a : uint128_t) (rhs : Nat) : Except Exn uint128_t :=
  operator_mod a (ofT rhs)

/-- The free `operator-(const T & lhs, const uint128_t & rhs)`: `-(rhs - lhs)`. -/
def free_sub (lhs : Nat) (rhs : uint128_t) : uint128_t :=
  operator_neg (operator_sub_T rhs lhs)

/-- The free `operator<<(const T & lhs, const uint128_t & rhs)`, one overload per
native type: `uint128_t(lhs) << rhs`. -/
def free_shl (lhs : Nat) (rhs : uint128_t) : uint128_t := operator_shl (ofT lhs) rhs

/-- The free `operator>>(const T & lhs, const uint128_t & rhs)`, one overload per
native type: `uint128_t(lhs) >> rhs`. -/
def free_shr (lhs : Nat) (rhs : uint128_t) : uint128_t := operator_shr (ofT lhs) rhs

/-- The free `operator/(const T & lhs, const uint128_t & rhs)`: `uint128_t(lhs) / rhs`. -/
def free_div (lhs : Nat) (rhs : uint128_t) : Except Exn uint128_t :=
  operator_div (ofT lhs) rhs

/-- The free `operator%(const T & lhs, const uint128_t & rhs)`: `uint128_t(lhs) % rhs`. -/
def free_mod (lhs : Nat) (rhs : uint128_t) : Except Exn uint128_t :=
  operator_mod (ofT lhs) rhs

/-! ### Compound assignment

Each compound assignment is given as the receiver after the assignment, its statements
taken in the order of the source.

The right operand of a member is a `const` reference. The 128-bit members below take
the object it refers to when that object is not the receiver; the members ending in
`_self` are the four separately written ones called on the receiver itself
(`a &= a`, ...). The other 128-bit members evaluate `*this op rhs` into a temporary
before they assign, so for them the receiver as operand is the operand `a` itself.

The native operand `const T & rhs` of a template member is a `NativeRef`: with
`T = uint64_t` it can be bound to a limb of the receiver, because `upper()` and
`lower()` return the members by reference, and a member that writes that limb before it
reads `rhs` again reads the new value. -/

/-- What the operand `const T & rhs` of a template member is bound to: an object outside
the receiver that holds `n`, the receiver's `UPPER` (as in `a &= a.upper()`), or the
receiver's `LOWER` (as in `a &= a.lower()`). -/
inductive NativeRef where
  | other (n : Nat)
  | upper
  | lower
deriving DecidableEq, Repr

/-- The value read through the reference `rhs` while the receiver holds `a`. -/
def deref (a : uint128_t) : NativeRef → Nat
  | NativeRef.other n => n
  | NativeRef.upper => a.UPPER
  | NativeRef.lower => a.LOWER

/-- The member `operator&=(const uint128_t & rhs)`:
`UPPER &= rhs.UPPER; LOWER &= rhs.LOWER;`. -/
def operator_and_assign (a rhs : uint128_t) : uint128_t :=
  let upper := a.UPPER &&& rhs.UPPER
  let lower := a.LOWER &&& rhs.LOWER
  ⟨upper, lower⟩

/-- The member `operator&=(const uint128_t & rhs)` with `rhs` the receiver: each
statement reads the limb of `rhs` from the receiver as it is then. -/
def operator_and_assign_self (a : uint128_t) : uint128_t :=
  -- UPPER &= rhs.UPPER;
  let s1 : uint128_t := ⟨a.UPPER &&& a.UPPER, a.LOWER⟩
  -- LOWER &= rhs.LOWER;
  ⟨s1.UPPER, s1.LOWER &&& s1.LOWER⟩

/-- The template member `operator&=(const T & rhs)`: `UPPER = 0; LOWER &= rhs;`. The
second statement reads `rhs` after `UPPER` has been written. -/
def operator_and_assign_T (a : uint128_t) (rhs : NativeRef) : uint128_t :=
  -- UPPER = 0;
  let s1 : uint128_t := ⟨0, a.LOWER⟩
  -- LOWER &= rhs;
  ⟨s1.UPPER, s1.LOWER &&& (deref s1 rhs % 2 ^ 64)⟩

/-- The member `operator|=(const uint128_t & rhs)`:
`UPPER |= rhs.UPPER; LOWER |= rhs.LOWER;`. -/
def operator_or_assign (a rhs : uint128_t) : uint128_t :=
  let upper := a.UPPER ||| rhs.UPPER
  let lower := a.LOWER ||| rhs.LOWER
  ⟨upper, lower⟩

/-- The member `operator|=(const uint128_t & rhs)` with `rhs` the receiver. -/
def operator_or_assign_self (a : uint128_t) : uint128_t :=
  -- UPPER |= rhs.UPPER;
  let s1 : uint128_t := ⟨a.UPPER ||| a.UPPER, a.LOWER⟩
  -- LOWER |= rhs.LOWER;
  ⟨s1.UPPER, s1.LOWER ||| s1.LOWER⟩

/-- The template member `operator|=(const T & rhs)`: `LOWER |= (uint64_t) rhs;`. -/
def operator_or_assign_T (a : uint128_t) (rhs : NativeRef) : uint128_t :=
  ⟨a.UPPER, a.LOWER ||| (deref a rhs % 2 ^ 64)⟩

/-- The member `operator^=(const uint128_t & rhs)`:
`UPPER ^= rhs.UPPER; LOWER ^= rhs.LOWER;`. -/
def operator_xor_assign (a rhs : uint128_t) : uint128_t :=
  let upper := a.UPPER ^^^ rhs.UPPER
  let lower := a.LOWER ^^^ rhs.LOWER
  ⟨upper, lower⟩

/-- The member `operator^=(const uint128_t & rhs)` with `rhs` the receiver. -/
def operator_xor_assign_self (a : uint128_t) : uint128_t :=
  -- UPPER ^= rhs.UPPER;
  let s1 : uint128_t := ⟨a.UPPER ^^^ a.UPPER, a.LOWER⟩
  -- LOWER ^= rhs.LOWER;
  ⟨s1.UPPER, s1.LOWER ^^^ s1.LOWER⟩

/-- The template member `operator^=(const T & rhs)`: `LOWER ^= (uint64_t) rhs;`. -/
def operator_xor_assign_T (a : uint128_t) (rhs : NativeRef) : uint128_t :=
  ⟨a.UPPER, a.LOWER ^^^ (deref a rhs % 2 ^ 64)⟩

/-- The member `operator+=(const uint128_t & rhs)` with `rhs` the receiver:
`UPPER += rhs.UPPER + ((LOWER + rhs.LOWER) < LOWER); LOWER += rhs.LOWER;`. The right
side of the first statement is evaluated before `UPPER` is written. -/
def operator_add_assign_self (a : uint128_t) : uint128_t :=
  -- UPPER += rhs.UPPER + ((LOWER + rhs.LOWER) < LOWER);
  let s1 : uint128_t :=
    ⟨add64 a.UPPER (add64 a.UPPER (b2n (decide (add64 a.LOWER a.LOWER < a.LOWER)))),
     a.LOWER⟩
  -- LOWER += rhs.LOWER;
  ⟨s1.UPPER, add64 s1.LOWER s1.LOWER⟩

/-- The template member `operator+=(const T & rhs)`:
`UPPER = UPPER + ((LOWER + rhs) < LOWER); LOWER = LOWER + rhs;`. The second statement
reads `rhs` after `UPPER` has been written. -/
def operator_add_assign_T (a : uint128_t) (rhs : NativeRef) : uint128_t :=
  -- UPPER = UPPER + ((LOWER + rhs) < LOWER);
  let s1 : uint128_t :=
    ⟨add64 a.UPPER (b2n (decide (add64 a.LOWER (deref a rhs % 2 ^ 64) < a.LOWER))),
     a.LOWER⟩
  -- LOWER = LOWER + rhs;
  ⟨s1.UPPER, add64 s1.LOWER (deref s1 rhs % 2 ^ 64)⟩

/-- The template member `operator-=(const T & rhs)`: `*this = *this - rhs`; the
difference is computed before the receiver is assigned. -/
def operator_sub_assign_T (a : uint128_t) (rhs : NativeRef) : uint128_t :=
  operator_sub_T a (deref a rhs)

/-- The member `operator*=(const uint128_t & rhs)`: `*this = *this * rhs`. -/
def operator_mul_assign (a rhs : uint128_t) : uint128_t := operator_mul a rhs

/-- The template member `operator*=(const T & rhs)`: `*this = *this * uint128_t(rhs)`. -/
def operator_mul_assign_T (a : uint128_t) (rhs : NativeRef) : uint128_t :=
  operator_mul a (ofT (deref a rhs))

/-- The template member `operator<<=(const T & rhs)`:
`*this = *this << uint128_t(rhs)`. -/
def operator_shl_assign_T (a : uint128_t) (rhs : NativeRef) : uint128_t :=
  operator_shl a (ofT (deref a rhs))

/-- The member `operator>>=(const uint128_t & rhs)`: `*this = *this >> rhs`. -/
def operator_shr_assign (a rhs : uint128_t) : uint128_t := operator_shr a rhs

/-- The template member `operator>>=(const T & rhs)`:
`*this = *this >> uint128_t(rhs)`. -/
def operator_shr_assign_T (a : uint128_t) (rhs : NativeRef) : uint128_t :=
  operator_shr a (ofT (deref a rhs))

/-- The member `operator/=(const uint128_t & rhs)`: `*this = *this / rhs`; the
exception of `/` leaves the function before the assignment. -/
def operator_div_assign (a rhs : uint128_t) : Except Exn uint128_t := operator_div a rhs

/-- The template member `operator/=(const T & rhs)`: `*this = *this / uint128_t(rhs)`. -/
def operator_div_assign_T (a : uint128_t) (rhs : NativeRef) : Except Exn uint128_t :=
  operator_div a (ofT (deref a rhs))

/-- The member `operator%=(const uint128_t & rhs)`: `*this = *this % rhs`. -/
def operator_mod_assign (a rhs : uint128_t) : Except Exn uint128_t := operator_mod a rhs

/-- The template member `operator%=(const T & rhs)`: `*this = *this % uint128_t(rhs)`. -/
def operator_mod_assign_T (a : uint128_t) (rhs : NativeRef) : Except Exn uint128_t :=
  operator_mod a (ofT (deref a rhs))

/-! ### One iteration of the loop of `divmod` -/

/-- The body of the `for` loop of `divmod` for the counter value `x + 1`, reading bit
`x` of `lhs`: the pair `qr` after the iteration. -/
def divmodBody (lhs rhs : uint128_t) (x : Nat) (qr : uint128_t × uint128_t) :
    uint128_t × uint128_t :=
  let first := operator_shl_assign qr.1 uint128_1
  let second := operator_shl_assign qr.2 uint128_1
  let second :=
    if operator_bool (operator_and_T (operator_shr_T lhs x) 1) then operator_inc second
    else second
  if operator_ge second rhs then (operator_inc first, operator_sub_assign second rhs)
  else (first, second)

/-- The pair `qr` of `divmod` after `k` iterations of a loop that starts with the
counter `n` (the source starts it at `lhs.bits()`) and the pair `(0, 0)`: iteration
`k + 1` has the counter `n - k` and reads bit `n - (k + 1)` of `lhs`. -/
def divmodAfter (lhs rhs : uint128_t) (n : Nat) : Nat → uint128_t × uint128_t
  | 0 => (uint128_0, uint128_0)
  | k + 1 => divmodBody lhs rhs (n - (k + 1)) (divmodAfter lhs rhs n k)
/-! ## Values and the wrapping sum and difference -/

theorem value_lt {a : uint128_t} (h : wf a) : value a < 2 ^ 128 := by
  unfold wf at h
  unfold value
  omega

theorem eq_of_value_eq {a b : uint128_t} (ha : wf a) (hb : wf b)
    (h : value a = value b) : a = b := by
  cases a with
  | mk au al =>
    cases b with
    | mk bu bl =>
      simp only [wf, value] at ha hb h
      have h1 : au = bu := by omega
      have h2 : al = bl := by omega
      rw [h1, h2]

theorem wf_add (a b : uint128_t) : wf (operator_add a b) := by
  simp only [wf, operator_add, add64]
  constructor <;> exact Nat.mod_lt _ (by norm_num)

theorem value_add {a b : uint128_t} (ha : wf a) (hb : wf b) :
    value (operator_add a b) = (value a + value b) % 2 ^ 128 := by
  simp only [wf] at ha hb
  simp only [value, operator_add, add64, b2n]
  split_ifs with h <;> simp only [decide_eq_true_eq] at h <;> omega

theorem add_assign_eq_add (a b : uint128_t) :
    operator_add_assign a b = operator_add a b := by
  simp only [operator_add_assign, operator_add, add64]
  congr 1
  omega

theorem wf_sub (a b : uint128_t) : wf (operator_sub a b) := by
  simp only [wf, operator_sub, sub64]
  constructor <;> exact Nat.mod_lt _ (by norm_num)

theorem value_sub {a b : uint128_t} (ha : wf a) (hb : wf b) :
    value (operator_sub a b) = (value a + 2 ^ 128 - value b) % 2 ^ 128 := by
  simp only [wf] at ha hb
  simp only [value, operator_sub, sub64, b2n]
  split_ifs with h <;> simp only [decide_eq_true_eq, gt_iff_lt] at h <;> omega
/-! ## Comparisons and shifts -/

theorem lt_iff_value {a b : uint128_t} (ha : wf a) (hb : wf b) :
    operator_lt a b = true ↔ value a < value b := by
  simp only [wf] at ha hb
  simp only [operator_lt, value]
  split_ifs with h <;> simp only [decide_eq_true_eq] <;> omega

theorem gt_iff_value {a b : uint128_t} (ha : wf a) (hb : wf b) :
    operator_gt a b = true ↔ value a > value b := by
  simp only [wf] at ha hb
  simp only [operator_gt, value]
  split_ifs with h <;> simp only [decide_eq_true_eq] <;> omega

theorem eq_iff (a b : uint128_t) : operator_eq a b = true ↔ a = b := by
  cases a; cases b
  simp [operator_eq]

theorem ge_iff_value {a b : uint128_t} (ha : wf a) (hb : wf b) :
    operator_ge a b = true ↔ value a ≥ value b := by
  simp only [operator_ge, Bool.or_eq_true, gt_iff_value ha hb, eq_iff]
  constructor
  · rintro (h | h)
    · omega
    · rw [h]
  · intro h
    rcases Nat.lt_or_ge (value b) (value a) with h1 | h1
    · exact Or.inl h1
    · exact Or.inr (eq_of_value_eq ha hb (by omega))

/-- Splitting a shifted limb: with `p * r` the limb modulus. -/
theorem shl_split (p r U L : Nat) (hp : 0 < p) (hr : 0 < r) (hL : L < p * r) :
    (((U * p) % (p * r) + L / r) % (p * r)) * (p * r) + (L * p) % (p * r)
      = ((U * (p * r) + L) * p) % ((p * r) * (p * r)) := by
  have h1 : (U * p) % (p * r) = (U % r) * p := by
    rw [Nat.mul_comm p r, Nat.mul_mod_mul_right]
  have h2 : (L * p) % (p * r) = (L % r) * p := by
    rw [Nat.mul_comm p r, Nat.mul_mod_mul_right]
  have h3 : L / r < p := Nat.div_lt_of_lt_mul (by rwa [Nat.mul_comm] at hL)
  have h4 : U % r < r := Nat.mod_lt _ hr
  have h5 : (U % r) * p + L / r < p * r := by nlinarith
  have h6 : L % r < r := Nat.mod_lt _ hr
  rw [h1, h2, Nat.mod_eq_of_lt h5]
  have hU := Nat.div_add_mod U r
  have hL2 := Nat.div_add_mod L r
  have key : (U * (p * r) + L) * p
      = ((U % r) * p + L / r) * (p * r) + (L % r) * p + (p * r) * (p * r) * (U / r) := by
    conv_lhs => rw [← hU, ← hL2]
    ring
  have h7 : (L % r) * p < p * r := by nlinarith
  have h8 : ((U % r) * p + L / r) * (p * r) + (L % r) * p < (p * r) * (p * r) := by
    nlinarith
  rw [key, Nat.add_mul_mod_self_left]
  exact (Nat.mod_eq_of_lt h8).symm

theorem shr_split (p r U L : Nat) (hp : 0 < p) (hL : L < p * r) :
    (U / p) * (p * r) + ((U * r) % (p * r) + L / p) % (p * r)
      = (U * (p * r) + L) / p := by
  have h1 : (U * r) % (p * r) = (U % p) * r := by
    rw [Nat.mul_mod_mul_right]
  have h3 : L / p < r := Nat.div_lt_of_lt_mul hL
  have h4 : U % p < p := Nat.mod_lt _ hp
  have h5 : (U % p) * r + L / p < p * r := by nlinarith
  rw [h1, Nat.mod_eq_of_lt h5]
  have hU := Nat.div_add_mod U p
  have key : U * (p * r) + L = L + p * (U * r) := by ring
  rw [key, Nat.add_mul_div_left _ _ hp]
  have : U * r = (U / p) * (p * r) + (U % p) * r := by
    conv_lhs => rw [← hU]
    ring
  omega

theorem pow_split {n : Nat} (h : n ≤ 64) : 2 ^ n * 2 ^ (64 - n) = 2 ^ 64 := by
  rw [← Nat.pow_add]
  congr 1
  omega

theorem wf_shl {a : uint128_t} (ha : wf a) (s : uint128_t) : wf (operator_shl a s) := by
  simp only [wf] at ha
  simp only [operator_shl]
  split_ifs <;> simp only [wf, uint128_0, add64, shl64] <;> constructor <;> omega

theorem value_shl {a s : uint128_t} (ha : wf a) (hs : s.UPPER = 0) (hlt : s.LOWER < 128) :
    value (operator_shl a s) = (value a * 2 ^ s.LOWER) % 2 ^ 128 := by
  obtain ⟨hU, hL⟩ := ha
  simp only [operator_shl]
  have c1 : ¬ (s.UPPER ≠ 0 ∨ s.LOWER ≥ 128) := by omega
  rw [if_neg c1]
  split_ifs with h64 h0 hlt64 hgt
  · -- shift == 64
    simp only [value, h64]
    omega
  · -- shift == 0
    simp only [value, h0]
    omega
  · -- 0 < shift < 64
    have hp := pow_split (Nat.le_of_lt hlt64)
    have := shl_split (2 ^ s.LOWER) (2 ^ (64 - s.LOWER)) a.UPPER a.LOWER
      (Nat.two_pow_pos _) (Nat.two_pow_pos _) (by rw [hp]; exact hL)
    rw [hp] at this
    simp only [value, add64, shl64, shr64, Nat.shiftLeft_eq, Nat.shiftRight_eq_div_pow]
    rw [this]
    norm_num
  · -- 64 < shift < 128
    simp only [value, shl64, Nat.shiftLeft_eq]
    have e : 2 ^ s.LOWER = 2 ^ (s.LOWER - 64) * 2 ^ 64 := by
      rw [← Nat.pow_add]
      congr 1
      omega
    have e2 : (2 : Nat) ^ 128 = 2 ^ 64 * 2 ^ 64 := by norm_num
    rw [e, e2, ← Nat.mul_assoc, Nat.mul_mod_mul_right, Nat.add_mul, Nat.mul_right_comm,
      Nat.mul_comm (a.UPPER * 2 ^ (s.LOWER - 64)) (2 ^ 64), Nat.mul_add_mod]
    simp
  · omega

theorem wf_shr {a : uint128_t} (ha : wf a) (s : uint128_t) : wf (operator_shr a s) := by
  simp only [wf] at ha
  simp only [operator_shr]
  split_ifs <;>
    simp only [wf, uint128_0, add64, shl64, shr64, Nat.shiftRight_eq_div_pow] <;>
    constructor <;>
    first
      | omega
      | exact Nat.lt_of_le_of_lt (Nat.div_le_self _ _) ha.1

theorem value_shr {a s : uint128_t} (ha : wf a) (hs : s.UPPER = 0) (hlt : s.LOWER < 128) :
    value (operator_shr a s) = value a / 2 ^ s.LOWER := by
  obtain ⟨hU, hL⟩ := ha
  simp only [operator_shr]
  have c1 : ¬ (s.UPPER ≠ 0 ∨ s.LOWER ≥ 128) := by omega
  rw [if_neg c1]
  split_ifs with h64 h0 hlt64 hgt
  · -- shift == 64
    simp only [value, h64]
    omega
  · -- shift == 0
    simp only [value, h0]
    omega
  · -- 0 < shift < 64
    have hp := pow_split (Nat.le_of_lt hlt64)
    have := shr_split (2 ^ s.LOWER) (2 ^ (64 - s.LOWER)) a.UPPER a.LOWER
      (Nat.two_pow_pos _) (by rw [hp]; exact hL)
    rw [hp] at this
    simp only [value, add64, shl64, shr64, Nat.shiftLeft_eq, Nat.shiftRight_eq_div_pow]
    rw [← this]
  · -- 64 < shift < 128
    simp only [value, shr64, Nat.shiftRight_eq_div_pow]
    have e : 2 ^ s.LOWER = 2 ^ 64 * 2 ^ (s.LOWER - 64) := by
      rw [← Nat.pow_add]
      congr 1
      omega
    rw [e, ← Nat.div_div_eq_div_mul]
    have : (a.UPPER * 2 ^ 64 + a.LOWER) / 2 ^ 64 = a.UPPER := by omega
    rw [this]
    simp
  · omega

/-! ## `bits` -/

theorem size_half {n : Nat} (h : n ≠ 0) : Nat.size n = Nat.size (n / 2) + 1 := by
  apply Nat.le_antisymm
  · rw [Nat.size_le]
    have := Nat.lt_size_self (n / 2)
    rw [Nat.pow_succ]
    omega
  · rw [Nat.succ_le_iff, Nat.lt_size]
    rcases Nat.eq_zero_or_pos (Nat.size (n / 2)) with h0 | h0
    · rw [h0]
      simp
      omega
    · have h1 : Nat.size (n / 2) - 1 < Nat.size (n / 2) := by omega
      rw [Nat.lt_size] at h1
      have h2 : 2 ^ Nat.size (n / 2) = 2 ^ (Nat.size (n / 2) - 1) * 2 := by
        rw [← Nat.pow_succ]
        congr 1
        omega
      omega

theorem bitsLoop_eq (up : Nat) : ∀ out : Nat, out + Nat.size up < 2 ^ 8 →
    bitsLoop up out = out + Nat.size up := by
  induction up using Nat.strong_induction_on with
  | _ up ih =>
    intro out hout
    rw [bitsLoop]
    split_ifs with h
    · have hs := size_half h
      rw [Nat.shiftRight_eq_div_pow, Nat.pow_one,
        ih (up / 2) (by omega) ((out + 1) % 2 ^ 8) (by omega)]
      omega
    · have : up = 0 := by omega
      rw [this]
      simp

theorem size_limb {x : Nat} (h : x < 2 ^ 64) : Nat.size x ≤ 64 := Nat.size_le.mpr h

theorem bits_eq {a : uint128_t} (ha : wf a) : bits a = Nat.size (value a) := by
  obtain ⟨hU, hL⟩ := ha
  have sU := size_limb hU
  have sL := size_limb hL
  simp only [bits]
  split_ifs with h
  · rw [bitsLoop_eq _ _ (by omega)]
    apply Nat.le_antisymm
    · have hpos : Nat.size a.UPPER ≠ 0 := Nat.size_eq_zero.not.mpr h
      have h1 : Nat.size a.UPPER - 1 < Nat.size a.UPPER := by omega
      rw [Nat.lt_size] at h1
      have h2 : 64 + Nat.size a.UPPER - 1 < Nat.size (value a) := by
        rw [Nat.lt_size]
        have e : 64 + Nat.size a.UPPER - 1 = (Nat.size a.UPPER - 1) + 64 := by omega
        rw [e, Nat.pow_add]
        simp only [value]
        calc 2 ^ (Nat.size a.UPPER - 1) * 2 ^ 64 ≤ a.UPPER * 2 ^ 64 :=
              Nat.mul_le_mul_right _ h1
          _ ≤ a.UPPER * 2 ^ 64 + a.LOWER := Nat.le_add_right _ _
      omega
    · rw [Nat.size_le, Nat.add_comm, Nat.pow_add]
      have := Nat.lt_size_self a.UPPER
      simp only [value]
      calc a.UPPER * 2 ^ 64 + a.LOWER < a.UPPER * 2 ^ 64 + 2 ^ 64 := by omega
        _ = (a.UPPER + 1) * 2 ^ 64 := by ring
        _ ≤ 2 ^ Nat.size a.UPPER * 2 ^ 64 := Nat.mul_le_mul_right _ this
  · have h0 : a.UPPER = 0 := by omega
    rw [bitsLoop_eq _ _ (by omega)]
    simp [value, h0]

theorem value_lt_pow_bits {a : uint128_t} (ha : wf a) : value a < 2 ^ bits a := by
  rw [bits_eq ha]
  exact Nat.lt_size_self _

theorem bits_le {a : uint128_t} (ha : wf a) : bits a ≤ 128 := by
  rw [bits_eq ha, Nat.size_le]
  exact value_lt ha

/-! ## The shift-subtract loop of `divmod` -/

theorem wf_uint128_0 : wf uint128_0 := by
  simp only [wf, uint128_0]
  omega

theorem wf_uint128_1 : wf uint128_1 := by
  simp only [wf, uint128_1]
  omega

theorem value_uint128_0 : value uint128_0 = 0 := by
  simp [value, uint128_0]

theorem value_uint128_1 : value uint128_1 = 1 := by
  simp [value, uint128_1]

theorem wf_ofT (n : Nat) : wf (ofT n) := by
  simp only [wf, ofT]
  omega

theorem value_shl_one {a : uint128_t} (ha : wf a) :
    value (operator_shl_assign a uint128_1) = (value a * 2) % 2 ^ 128 := by
  have := value_shl (s := uint128_1) ha rfl (by simp [uint128_1])
  simpa [operator_shl_assign, uint128_1] using this

theorem wf_inc (a : uint128_t) : wf (operator_inc a) := by
  rw [operator_inc, add_assign_eq_add]
  exact wf_add _ _

theorem value_inc {a : uint128_t} (ha : wf a) :
    value (operator_inc a) = (value a + 1) % 2 ^ 128 := by
  rw [operator_inc, add_assign_eq_add, value_add ha wf_uint128_1, value_uint128_1]

theorem bit_test {lhs : uint128_t} (hl : wf lhs) {x : Nat} (hx : x < 128) :
    operator_bool (operator_and_T (operator_shr_T lhs x) 1) = true
      ↔ (value lhs / 2 ^ x) % 2 = 1 := by
  have hx64 : x % 2 ^ 64 = x := Nat.mod_eq_of_lt (by omega)
  have hv := value_shr (s := ofT x) hl rfl (by simp only [ofT]; omega)
  have hw := wf_shr hl (ofT x)
  simp only [ofT, hx64] at hv hw
  simp only [operator_bool, operator_and_T, operator_shr_T, ofT, hx64, ← hv,
    Nat.zero_or, decide_eq_true_eq]
  have e1 : (1 : Nat) % 2 ^ 64 = 1 := by norm_num
  rw [e1, Nat.and_one_is_mod]
  simp only [wf] at hw
  simp only [value]
  omega

theorem divmodLoop_spec {lhs rhs : uint128_t} (hl : wf lhs) (hr : wf rhs)
    (hpos : 0 < value rhs) :
    ∀ (x : Nat) (qr : uint128_t × uint128_t), x ≤ 128 → wf qr.1 → wf qr.2 →
      value qr.1 * value rhs + value qr.2 = value lhs / 2 ^ x →
      value qr.2 < value rhs →
      wf (divmodLoop lhs rhs x qr).1 ∧ wf (divmodLoop lhs rhs x qr).2 ∧
      value (divmodLoop lhs rhs x qr).1 * value rhs + value (divmodLoop lhs rhs x qr).2
        = value lhs ∧
      value (divmodLoop lhs rhs x qr).2 < value rhs := by
  intro x
  induction x with
  | zero =>
    intro qr _ h1 h2 h3 h4
    simp only [divmodLoop]
    simp only [Nat.pow_zero, Nat.div_one] at h3
    exact ⟨h1, h2, h3, h4⟩
  | succ x ih =>
    intro qr hx h1 h2 h3 h4
    have hA := value_lt hl
    -- the part of the dividend read so far is below 2 ^ 127
    have hhalf : value lhs / 2 ^ (x + 1) = value lhs / 2 ^ x / 2 := by
      rw [Nat.pow_succ, Nat.div_div_eq_div_mul]
    have hsmall : value lhs / 2 ^ x / 2 < 2 ^ 127 := by
      have : value lhs / 2 ^ x ≤ value lhs := Nat.div_le_self _ _
      omega
    rw [hhalf] at h3
    have hQ : value qr.1 ≤ value qr.1 * value rhs := Nat.le_mul_of_pos_right _ hpos
    -- the two left shifts do not wrap
    have hq1 : value (operator_shl_assign qr.1 uint128_1) = value qr.1 * 2 := by
      rw [value_shl_one h1]
      omega
    have hr1 : value (operator_shl_assign qr.2 uint128_1) = value qr.2 * 2 := by
      rw [value_shl_one h2]
      omega
    have wq1 : wf (operator_shl_assign qr.1 uint128_1) := wf_shl h1 _
    have wr1 : wf (operator_shl_assign qr.2 uint128_1) := wf_shl h2 _
    have hbit := bit_test hl (x := x) (by omega)
    have hmul : value qr.1 * 2 * value rhs = 2 * (value qr.1 * value rhs) := by ring
    simp only [divmodLoop]
    split_ifs with hb hge hge
    · -- bit set, remainder reaches the divisor
      have wr2 := wf_inc (operator_shl_assign qr.2 uint128_1)
      have hr2 : value (operator_inc (operator_shl_assign qr.2 uint128_1))
          = value qr.2 * 2 + 1 := by
        rw [value_inc wr1, hr1]
        omega
      rw [ge_iff_value wr2 hr] at hge
      have hb' := hbit.mp hb
      apply ih _ (by omega) (wf_inc _) (wf_sub _ _)
      · simp only [operator_sub_assign]
        rw [value_inc wq1, value_sub wr2 hr, hq1, hr2]
        rw [hr2] at hge
        have e1 : (value qr.1 * 2 + 1) % 2 ^ 128 = value qr.1 * 2 + 1 := by omega
        have e2 : (value qr.2 * 2 + 1 + 2 ^ 128 - value rhs) % 2 ^ 128
            = value qr.2 * 2 + 1 - value rhs := by omega
        rw [e1, e2, Nat.add_mul, hmul]
        omega
      · simp only [operator_sub_assign]
        rw [value_sub wr2 hr, hr2]
        rw [hr2] at hge
        omega
    · rw [Bool.not_eq_true] at hge
      have wr2 := wf_inc (operator_shl_assign qr.2 uint128_1)
      have hr2 : value (operator_inc (operator_shl_assign qr.2 uint128_1))
          = value qr.2 * 2 + 1 := by
        rw [value_inc wr1, hr1]
        omega
      have hlt : ¬ value (operator_inc (operator_shl_assign qr.2 uint128_1)) ≥ value rhs := by
        rw [← ge_iff_value wr2 hr, hge]
        simp
      have hb' := hbit.mp hb
      apply ih _ (by omega) wq1 wr2
      · rw [hq1, hr2, hmul]
        omega
      · exact Nat.lt_of_not_ge hlt
    · have hb' : ¬ (value lhs / 2 ^ x) % 2 = 1 := fun h => hb (hbit.mpr h)
      rw [ge_iff_value wr1 hr] at hge
      apply ih _ (by omega) (wf_inc _) (wf_sub _ _)
      · simp only [operator_sub_assign]
        rw [value_inc wq1, value_sub wr1 hr, hq1, hr1]
        rw [hr1] at hge
        have e1 : (value qr.1 * 2 + 1) % 2 ^ 128 = value qr.1 * 2 + 1 := by omega
        have e2 : (value qr.2 * 2 + 2 ^ 128 - value rhs) % 2 ^ 128
            = value qr.2 * 2 - value rhs := by omega
        rw [e1, e2, Nat.add_mul, hmul]
        omega
      · simp only [operator_sub_assign]
        rw [value_sub wr1 hr, hr1]
        rw [hr1] at hge
        omega
    · have hb' : ¬ (value lhs / 2 ^ x) % 2 = 1 := fun h => hb (hbit.mpr h)
      rw [Bool.not_eq_true] at hge
      have hlt : ¬ value (operator_shl_assign qr.2 uint128_1) ≥ value rhs := by
        rw [← ge_iff_value wr1 hr, hge]
        simp
      apply ih _ (by omega) wq1 wr1
      · rw [hq1, hr1, hmul]
        omega
      · exact Nat.lt_of_not_ge hlt

/-! ## `divmod` -/

theorem value_eq_zero {a : uint128_t} (h : value a = 0) : a = uint128_0 := by
  cases a with
  | mk u l =>
    simp only [value] at h
    have h1 : u = 0 := by omega
    have h2 : l = 0 := by omega
    rw [h1, h2]
    rfl

theorem divmod_spec {a b : uint128_t} (ha : wf a) (hb : wf b) (hne : b ≠ uint128_0) :
    ∃ q r, divmod a b = .ok (q, r) ∧ wf q ∧ wf r ∧
      value q = value a / value b ∧ value r = value a % value b := by
  have hpos : 0 < value b := by
    rcases Nat.eq_zero_or_pos (value b) with h | h
    · exact absurd (value_eq_zero h) hne
    · exact h
  simp only [divmod]
  have c0 : ¬ operator_eq b uint128_0 = true := by
    rw [eq_iff]
    exact hne
  rw [if_neg c0]
  split_ifs with h1 h2 h3
  · -- the divisor is 1
    rw [eq_iff] at h1
    refine ⟨a, uint128_0, rfl, ha, wf_uint128_0, ?_, ?_⟩
    · rw [h1, value_uint128_1, Nat.div_one]
    · rw [h1, value_uint128_1, value_uint128_0, Nat.mod_one]
  · -- dividend and divisor are equal
    rw [eq_iff] at h2
    refine ⟨uint128_1, uint128_0, rfl, wf_uint128_1, wf_uint128_0, ?_, ?_⟩
    · rw [h2, value_uint128_1, Nat.div_self hpos]
    · rw [h2, value_uint128_0, Nat.mod_self]
  · -- the dividend is zero or below the divisor
    have hlt : value a < value b := by
      rw [Bool.or_eq_true, eq_iff, lt_iff_value ha hb] at h3
      rcases h3 with h3 | h3
      · rw [h3, value_uint128_0]
        exact hpos
      · exact h3
    refine ⟨uint128_0, a, rfl, wf_uint128_0, ha, ?_, ?_⟩
    · rw [value_uint128_0, Nat.div_eq_of_lt hlt]
    · rw [Nat.mod_eq_of_lt hlt]
  · -- the loop
    have hinit : value (uint128_0, uint128_0).1 * value b + value (uint128_0, uint128_0).2
        = value a / 2 ^ bits a := by
      rw [Nat.div_eq_of_lt (value_lt_pow_bits ha)]
      simp [value_uint128_0]
    obtain ⟨w1, w2, e, lt⟩ := divmodLoop_spec ha hb hpos (bits a) (uint128_0, uint128_0)
      (bits_le ha) wf_uint128_0 wf_uint128_0 hinit (by simpa [value_uint128_0] using hpos)
    refine ⟨_, _, rfl, w1, w2, ?_, ?_⟩
    · rw [← e, Nat.mul_comm, Nat.mul_add_div hpos, Nat.div_eq_of_lt lt, Nat.add_zero]
    · rw [← e, Nat.mul_comm, Nat.mul_add_mod, Nat.mod_eq_of_lt lt]

/-! ## `str` -/

theorem value_ofT {n : Nat} (h : n < 2 ^ 64) : value (ofT n) = n := by
  simp only [value, ofT]
  omega

theorem operator_bool_value {a : uint128_t} (h : operator_bool a = true) : value a ≠ 0 := by
  intro h0
  rw [value_eq_zero h0] at h
  exact absurd h (by decide)

theorem strLoop_total {base : Nat} (h2 : 2 ≤ base) (h16 : base ≤ 16) :
    ∀ (fuel : Nat) (qr : uint128_t × uint128_t) (out : String), wf qr.1 →
      value qr.1 < 2 ^ (fuel + 1) → ∃ s, strLoop base (fuel + 1) qr out = some (.ok s) := by
  have hv : value (ofT base) = base := value_ofT (by omega)
  have hne : ofT base ≠ uint128_0 := by
    intro h
    rw [h, value_uint128_0] at hv
    omega
  intro fuel
  induction fuel with
  | zero =>
    intro qr out hw hlt
    obtain ⟨q, r, hd, wq, _, hq, _⟩ := divmod_spec hw (wf_ofT base) hne
    rw [strLoop, hd]
    simp only
    split_ifs with hb
    · have := operator_bool_value hb
      rw [hq, hv, Nat.div_eq_of_lt (by omega)] at this
      exact absurd rfl this
    · exact ⟨_, rfl⟩
  | succ fuel ih =>
    intro qr out hw hlt
    obtain ⟨q, r, hd, wq, _, hq, _⟩ := divmod_spec hw (wf_ofT base) hne
    rw [strLoop, hd]
    simp only
    split_ifs with hb
    · apply ih _ _ wq
      rw [hq, hv]
      have h1 : value qr.1 / base ≤ value qr.1 / 2 := Nat.div_le_div_left h2 (by norm_num)
      have h3 : (2 : Nat) ^ (fuel + 1 + 1) = 2 ^ (fuel + 1) * 2 := Nat.pow_succ _ _
      show value qr.1 / base < 2 ^ (fuel + 1)
      omega
    · exact ⟨_, rfl⟩

theorem strLoop_fuel {base : Nat} (k : Nat) :
    ∀ (fuel : Nat) (qr : uint128_t × uint128_t) (out : String) (res : Except Exn String),
      strLoop base fuel qr out = some res → strLoop base (fuel + k) qr out = some res := by
  intro fuel
  induction fuel with
  | zero =>
    intro qr out res h
    simp [strLoop] at h
  | succ fuel ih =>
    intro qr out res h
    have e : fuel + 1 + k = (fuel + k) + 1 := by omega
    rw [e]
    rw [strLoop] at h ⊢
    cases hd : divmod qr.1 (ofT base) with
    | error err =>
      rw [hd] at h
      exact h
    | ok qr1 =>
      rw [hd] at h
      simp only at h ⊢
      split_ifs at h ⊢ with hb
      · exact ih _ _ _ h
      · exact h

/-! ## `str` against the numeral of the value -/

theorem or_eq_zero {x y : Nat} : x ||| y = 0 ↔ x = 0 ∧ y = 0 := by
  constructor
  · intro h
    have hb : ∀ i, (x.testBit i || y.testBit i) = false := by
      intro i
      rw [← Nat.testBit_or, h, Nat.zero_testBit]
    constructor
    · apply Nat.eq_of_testBit_eq
      intro i
      have := hb i
      rw [Bool.or_eq_false_iff] at this
      rw [this.1, Nat.zero_testBit]
    · apply Nat.eq_of_testBit_eq
      intro i
      have := hb i
      rw [Bool.or_eq_false_iff] at this
      rw [this.2, Nat.zero_testBit]
  · rintro ⟨rfl, rfl⟩
    rfl

theorem operator_bool_iff (a : uint128_t) : operator_bool a = true ↔ value a ≠ 0 := by
  simp only [operator_bool, decide_eq_true_eq, ne_eq, or_eq_zero, value]
  omega

theorem operator_not_iff (a : uint128_t) : operator_not a = true ↔ value a = 0 := by
  simp only [operator_not, Bool.not_eq_true', decide_eq_false_iff_not, ne_eq, not_not,
    or_eq_zero, value]
  omega

theorem strLoop_eq_numeralLoop {base : Nat} (h2 : 2 ≤ base) (h16 : base ≤ 16) :
    ∀ (fuel : Nat) (qr : uint128_t × uint128_t) (out : String), wf qr.1 →
      strLoop base fuel qr out = (numeralLoop base fuel (value qr.1) out).map Except.ok := by
  have hv : value (ofT base) = base := value_ofT (by omega)
  have hne : ofT base ≠ uint128_0 := by
    intro h
    rw [h, value_uint128_0] at hv
    omega
  intro fuel
  induction fuel with
  | zero =>
    intro qr out _
    rfl
  | succ fuel ih =>
    intro qr out hw
    obtain ⟨q, r, hd, wq, wr, hq, hr⟩ := divmod_spec hw (wf_ofT base) hne
    rw [hv] at hq hr
    have hr16 : value r < 16 := by
      rw [hr]
      exact Nat.lt_of_lt_of_le (Nat.mod_lt _ (by omega)) h16
    have hdig : operator_uint8_t r = value qr.1 % base := by
      rw [← hr]
      simp only [operator_uint8_t, value] at hr16 ⊢
      omega
    rw [strLoop, numeralLoop, hd]
    simp only [hdig]
    by_cases hb : operator_bool q = true
    · have hnz : value qr.1 / base ≠ 0 := by
        rw [← hq]
        exact (operator_bool_iff q).mp hb
      rw [if_pos hb, if_pos hnz, ih _ _ wq]
      simp only [hq]
    · have hz : ¬ value qr.1 / base ≠ 0 := by
        rw [← hq]
        exact fun h => hb ((operator_bool_iff q).mpr h)
      rw [if_neg hb, if_neg hz]
      rfl

theorem str_fuel_eq {a : uint128_t} {base : Nat} (ha : wf a) (h2 : 2 ≤ base)
    (h16 : base ≤ 16) (fuel len : Nat) :
    str_fuel fuel a base len =
      if value a = 0 then some (.ok (pad "0" len))
      else (numeralLoop base fuel (value a) "").map (fun s => Except.ok (pad s len)) := by
  have c : ¬ (base < 2 ∨ base > 16) := by omega
  simp only [str_fuel, if_neg c]
  by_cases hz : value a = 0
  · rw [if_pos ((operator_not_iff a).mpr hz), if_pos hz]
  · have hn : ¬ operator_not a = true := fun h => hz ((operator_not_iff a).mp h)
    rw [if_neg hn, if_neg hz, strLoop_eq_numeralLoop h2 h16 _ _ _ ha]
    cases numeralLoop base fuel (value a) "" <;> rfl

theorem digitValue_digit {i : Nat} (h : i < 16) : digitValue (digit i) = i := by
  have key : ∀ j : Fin 16, digitValue (digit j) = j := by decide
  exact key ⟨i, h⟩

theorem digit_ne_zero {i : Nat} (h : i < 16) (h0 : i ≠ 0) : digit i ≠ '0' := by
  have key : ∀ j : Fin 16, (j : Nat) ≠ 0 → digit j ≠ '0' := by decide
  exact key ⟨i, h⟩ h0

theorem readNumeral_snoc (base : Nat) (cs : List Char) (c : Char) :
    readNumeral base (cs ++ [c]) = readNumeral base cs * base + digitValue c := by
  simp [readNumeral, List.foldl_append]

theorem numeralLoop_spec {base : Nat} (h2 : 2 ≤ base) (h16 : base ≤ 16) :
    ∀ (fuel n : Nat) (out s : String), numeralLoop base fuel n out = some s →
      ∃ pre : List Char, s.data = pre ++ out.data ∧ pre ≠ [] ∧
        (∀ c ∈ pre, ∃ i, i < base ∧ digit i = c) ∧
        readNumeral base pre = n ∧ (n ≠ 0 → pre.head? ≠ some '0') := by
  intro fuel
  induction fuel with
  | zero =>
    intro n out s h
    simp [numeralLoop] at h
  | succ fuel ih =>
    intro n out s h
    have hmod : n % base < base := Nat.mod_lt _ (by omega)
    rw [numeralLoop] at h
    split_ifs at h with hq
    · obtain ⟨pre, hs, hne, hdig, hread, hhead⟩ := ih _ _ _ h
      refine ⟨pre ++ [digit (n % base)], ?_, by simp, ?_, ?_, ?_⟩
      · rw [hs]
        simp
      · intro c hc
        rw [List.mem_append, List.mem_singleton] at hc
        rcases hc with hc | hc
        · exact hdig c hc
        · exact ⟨n % base, hmod, hc.symm⟩
      · rw [readNumeral_snoc, hread, digitValue_digit (by omega)]
        exact Nat.div_add_mod' n base
      · intro _
        have := hhead hq
        cases pre with
        | nil => exact absurd rfl hne
        | cons c cs => simpa using this
    · have hlt : n < base := by
        rcases Nat.lt_or_ge n base with h1 | h1
        · exact h1
        · exact absurd (Nat.ne_of_gt (Nat.div_pos h1 (by omega))) hq
      have hs : s = String.singleton (digit (n % base)) ++ out := by
        injection h with h
        exact h.symm
      rw [Nat.mod_eq_of_lt hlt] at hs
      refine ⟨[digit n], ?_, by simp, ?_, ?_, ?_⟩
      · rw [hs]
        simp
      · intro c hc
        rw [List.mem_singleton] at hc
        exact ⟨n, hlt, hc.symm⟩
      · simp [readNumeral, digitValue_digit (Nat.lt_of_lt_of_le hlt h16)]
      · intro hn
        simpa using digit_ne_zero (Nat.lt_of_lt_of_le hlt h16) hn

theorem numeralLoop_total {base : Nat} (h2 : 2 ≤ base) :
    ∀ (fuel n : Nat) (out : String), n < 2 ^ (fuel + 1) →
      ∃ s, numeralLoop base (fuel + 1) n out = some s := by
  intro fuel
  induction fuel with
  | zero =>
    intro n out hn
    rw [numeralLoop]
    have : n / base = 0 := Nat.div_eq_of_lt (by omega)
    rw [if_neg (by simpa using this)]
    exact ⟨_, rfl⟩
  | succ fuel ih =>
    intro n out hn
    rw [numeralLoop]
    split_ifs with hq
    · apply ih
      have h1 : n / base ≤ n / 2 := Nat.div_le_div_left h2 (by norm_num)
      have h3 : (2 : Nat) ^ (fuel + 1 + 1) = 2 ^ (fuel + 1) * 2 := Nat.pow_succ _ _
      omega
    · exact ⟨_, rfl⟩

/-! ## The operators against the specification -/

theorem shift_or {X Y k : Nat} (hk : k < 64) (hY : Y < 2 ^ 64) :
    add64 (shl64 X k) (shr64 Y (64 - k)) = shl64 X k ||| shr64 Y (64 - k) := by
  have hp : 2 ^ (64 - k) * 2 ^ k = 2 ^ 64 := by
    rw [← Nat.pow_add]
    congr 1
    omega
  have h1 : shl64 X k = 2 ^ k * (X % 2 ^ (64 - k)) := by
    simp only [shl64, Nat.shiftLeft_eq]
    rw [← hp, Nat.mul_mod_mul_right, Nat.mul_comm]
  have h2 : shr64 Y (64 - k) < 2 ^ k := by
    simp only [shr64, Nat.shiftRight_eq_div_pow]
    exact Nat.div_lt_of_lt_mul (by rw [hp]; exact hY)
  have h3 : X % 2 ^ (64 - k) < 2 ^ (64 - k) := Nat.mod_lt _ (Nat.two_pow_pos _)
  have h4 : 2 ^ k * (X % 2 ^ (64 - k)) + shr64 Y (64 - k) < 2 ^ 64 := by
    calc 2 ^ k * (X % 2 ^ (64 - k)) + shr64 Y (64 - k)
        < 2 ^ k * (X % 2 ^ (64 - k)) + 2 ^ k := by omega
      _ = (X % 2 ^ (64 - k) + 1) * 2 ^ k := by ring
      _ ≤ 2 ^ (64 - k) * 2 ^ k := Nat.mul_le_mul_right _ h3
      _ = 2 ^ 64 := hp
  rw [h1, ← Nat.mul_add_lt_is_or h2, add64, Nat.mod_eq_of_lt h4]

/-- C1 (code): at the input the specification documents, `operator*` returns
`(0xfffffff800000000, 0)` where the wrapping product is
`(0xFFFFFFFFFFFFFFFF, 0xFFFFFFFFFFFFFFFE)`, and `1 * 1` is returned as `2 ^ 96`: the
lambda `ref(x, y) = y*3+x` does not address the 4-by-4 table of limb products. -/
theorem operator_mul_max_two :
    operator_mul ⟨0xFFFFFFFFFFFFFFFF, 0xFFFFFFFFFFFFFFFF⟩ ⟨0, 2⟩ = ⟨0xfffffff800000000, 0⟩ ∧
    operator_mul ⟨0xFFFFFFFFFFFFFFFF, 0xFFFFFFFFFFFFFFFF⟩ ⟨0, 2⟩
      ≠ ⟨0xFFFFFFFFFFFFFFFF, 0xFFFFFFFFFFFFFFFE⟩ ∧
    value (operator_mul uint128_1 uint128_1) = 2 ^ 96 := by
  decide

/-- C2: for every well-formed `a` and `b` with `b` not zero, `a / b` and `a % b` return,
the quotient has value `value a / value b` (the floor), the remainder has value
`value a % value b`, and the remainder is below the divisor. -/
theorem divmod_quotient_remainder (a b : uint128_t) (ha : wf a) (hb : wf b)
    (hne : b ≠ uint128_0) :
    ∃ q r, operator_div a b = .ok q ∧ operator_mod a b = .ok r ∧ wf q ∧ wf r ∧
      value q = value a / value b ∧ value r = value a % value b ∧
      value r < value b ∧ operator_lt r b = true := by
  obtain ⟨q, r, hd, wq, wr, hq, hr⟩ := divmod_spec ha hb hne
  have hpos : 0 < value b := by
    rcases Nat.eq_zero_or_pos (value b) with h | h
    · exact absurd (value_eq_zero h) hne
    · exact h
  have hlt : value r < value b := by
    rw [hr]
    exact Nat.mod_lt _ hpos
  refine ⟨q, r, ?_, ?_, wq, wr, hq, hr, hlt, (lt_iff_value wr hb).mpr hlt⟩
  · simp only [operator_div, hd]
    rfl
  · simp only [operator_mod, hd]
    rfl

theorem divmod_quotient_remainder_witness :
    wf ⟨0xFFFFFFFFFFFFFFFF, 0xFFFFFFFFFFFFFFFF⟩ ∧ wf ⟨0, 10⟩ ∧
    (⟨0, 10⟩ : uint128_t) ≠ uint128_0 ∧
    ∃ q r, operator_div ⟨0xFFFFFFFFFFFFFFFF, 0xFFFFFFFFFFFFFFFF⟩ ⟨0, 10⟩ = .ok q ∧
      operator_mod ⟨0xFFFFFFFFFFFFFFFF, 0xFFFFFFFFFFFFFFFF⟩ ⟨0, 10⟩ = .ok r ∧ wf q ∧ wf r ∧
      value q = value ⟨0xFFFFFFFFFFFFFFFF, 0xFFFFFFFFFFFFFFFF⟩ / value ⟨0, 10⟩ ∧
      value r = value ⟨0xFFFFFFFFFFFFFFFF, 0xFFFFFFFFFFFFFFFF⟩ % value ⟨0, 10⟩ ∧
      value r < value ⟨0, 10⟩ ∧ operator_lt r ⟨0, 10⟩ = true :=
  ⟨by decide, by decide, by decide,
    divmod_quotient_remainder ⟨0xFFFFFFFFFFFFFFFF, 0xFFFFFFFFFFFFFFFF⟩ ⟨0, 10⟩
      (by decide) (by decide) (by decide)⟩

/-- C3 (code): with `a = 1` and `b = 1` the operators give `a / b = 1`, `a % b = 0` and
`(a / b) * b + (a % b) = 2 ^ 96`, which is not `a`: the reconstruction goes through
`operator*`, whose table lookup is wrong. -/
theorem div_mul_add_mod_one_one :
    operator_div uint128_1 uint128_1 = .ok uint128_1 ∧
    operator_mod uint128_1 uint128_1 = .ok uint128_0 ∧
    operator_add (operator_mul uint128_1 uint128_1) uint128_0 = ⟨0x100000000, 0⟩ ∧
    operator_eq (operator_add (operator_mul uint128_1 uint128_1) uint128_0) uint128_1
      = false := by
  refine ⟨rfl, rfl, ?_, ?_⟩ <;> decide

/-- C4: `a / b` and `a % b` throw the domain error exactly when both limbs of `b` are
zero; then there is no quotient and no remainder, and for every other `b` both return
the two halves of one `divmod` result. -/
theorem divmod_domain_error_iff (a b : uint128_t) :
    (operator_div a b = .error Exn.domain_error ↔ b.UPPER = 0 ∧ b.LOWER = 0) ∧
    (operator_mod a b = .error Exn.domain_error ↔ b.UPPER = 0 ∧ b.LOWER = 0) ∧
    (b.UPPER = 0 ∧ b.LOWER = 0 →
      (∀ q, operator_div a b ≠ .ok q) ∧ (∀ r, operator_mod a b ≠ .ok r)) ∧
    (¬ (b.UPPER = 0 ∧ b.LOWER = 0) →
      ∃ q r, divmod a b = .ok (q, r) ∧ operator_div a b = .ok q ∧
        operator_mod a b = .ok r) := by
  have hz : operator_eq b uint128_0 = true ↔ b.UPPER = 0 ∧ b.LOWER = 0 := by
    simp [operator_eq, uint128_0]
  by_cases h : b.UPPER = 0 ∧ b.LOWER = 0
  · have hd : divmod a b = .error Exn.domain_error := by
      simp only [divmod, hz.mpr h, if_true]
    have e1 : operator_div a b = .error Exn.domain_error := by
      simp only [operator_div, hd]
      rfl
    have e2 : operator_mod a b = .error Exn.domain_error := by
      simp only [operator_mod, hd]
      rfl
    refine ⟨⟨fun _ => h, fun _ => e1⟩, ⟨fun _ => h, fun _ => e2⟩, fun _ => ⟨?_, ?_⟩,
      fun hn => absurd h hn⟩
    · intro q hq
      rw [e1] at hq
      cases hq
    · intro r hr
      rw [e2] at hr
      cases hr
  · have hd : ∃ q r, divmod a b = .ok (q, r) := by
      have c0 : ¬ operator_eq b uint128_0 = true := fun hc => h (hz.mp hc)
      simp only [divmod, if_neg c0]
      split_ifs
      · exact ⟨_, _, rfl⟩
      · exact ⟨_, _, rfl⟩
      · exact ⟨_, _, rfl⟩
      · exact ⟨_, _, rfl⟩
    obtain ⟨q, r, hqr⟩ := hd
    have e1 : operator_div a b = .ok q := by
      simp only [operator_div, hqr]
      rfl
    have e2 : operator_mod a b = .ok r := by
      simp only [operator_mod, hqr]
      rfl
    refine ⟨⟨fun he => ?_, fun hc => absurd hc h⟩, ⟨fun he => ?_, fun hc => absurd hc h⟩,
      fun hc => absurd hc h, fun _ => ⟨q, r, hqr, e1, e2⟩⟩
    · rw [e1] at he
      cases he
    · rw [e2] at he
      cases he

/-- C5: for well-formed `a` and `b`, `a + b` has value `(value a + value b) mod 2 ^ 128`;
its low limb is `(a.LOWER + b.LOWER) mod 2 ^ 64`, the carry is 1 exactly when that low
limb is below `a.LOWER` (exactly when the limb sum overflowed), its high limb is
`(a.UPPER + b.UPPER + carry) mod 2 ^ 64`, and the maximum value plus one is zero. -/
theorem operator_add_value (a b : uint128_t) (ha : wf a) (hb : wf b) :
    value (operator_add a b) = (value a + value b) % 2 ^ 128 ∧
    (operator_add a b).LOWER = (a.LOWER + b.LOWER) % 2 ^ 64 ∧
    (operator_add a b).UPPER
      = (a.UPPER + b.UPPER + (if (operator_add a b).LOWER < a.LOWER then 1 else 0)) % 2 ^ 64 ∧
    ((operator_add a b).LOWER < a.LOWER ↔ 2 ^ 64 ≤ a.LOWER + b.LOWER) ∧
    wf (operator_add a b) ∧
    operator_add ⟨2 ^ 64 - 1, 2 ^ 64 - 1⟩ uint128_1 = uint128_0 := by
  refine ⟨value_add ha hb, rfl, ?_, ?_, wf_add a b, by decide⟩
  · simp only [operator_add, add64, b2n]
    split_ifs with h1 h2 h2 <;> simp only [decide_eq_true_eq] at h1 <;> omega
  · simp only [wf] at ha hb
    simp only [operator_add, add64]
    omega

theorem operator_add_value_witness :
    wf ⟨7, 2 ^ 64 - 1⟩ ∧ wf ⟨2 ^ 64 - 8, 5⟩ ∧
    value (operator_add ⟨7, 2 ^ 64 - 1⟩ ⟨2 ^ 64 - 8, 5⟩)
      = (value ⟨7, 2 ^ 64 - 1⟩ + value ⟨2 ^ 64 - 8, 5⟩) % 2 ^ 128 ∧
    (operator_add ⟨7, 2 ^ 64 - 1⟩ ⟨2 ^ 64 - 8, 5⟩).LOWER = (2 ^ 64 - 1 + 5) % 2 ^ 64 :=
  have h := operator_add_value ⟨7, 2 ^ 64 - 1⟩ ⟨2 ^ 64 - 8, 5⟩ (by decide) (by decide)
  ⟨by decide, by decide, h.1, h.2.1⟩

/-- C6: for well-formed `a` and `b`, `a - b` has value `(value a - value b) mod 2 ^ 128`
(the difference taken in the integers); its low limb is `(a.LOWER - b.LOWER) mod 2 ^ 64`,
the borrow is 1 exactly when that low limb is above `a.LOWER` (exactly when
`a.LOWER < b.LOWER`), and its high limb is `(a.UPPER - b.UPPER - borrow) mod 2 ^ 64`. -/
theorem operator_sub_value (a b : uint128_t) (ha : wf a) (hb : wf b) :
    (value (operator_sub a b) : Int) = ((value a : Int) - (value b : Int)) % 2 ^ 128 ∧
    ((operator_sub a b).LOWER : Int) = ((a.LOWER : Int) - (b.LOWER : Int)) % 2 ^ 64 ∧
    ((operator_sub a b).UPPER : Int)
      = ((a.UPPER : Int) - (b.UPPER : Int)
          - (if (operator_sub a b).LOWER > a.LOWER then 1 else 0)) % 2 ^ 64 ∧
    ((operator_sub a b).LOWER > a.LOWER ↔ a.LOWER < b.LOWER) ∧
    wf (operator_sub a b) := by
  have hv := value_sub ha hb
  have hA := value_lt ha
  have hB := value_lt hb
  have e128 : (2 : Int) ^ 128 = 340282366920938463463374607431768211456 := by norm_num
  have e64 : (2 : Int) ^ 64 = 18446744073709551616 := by norm_num
  rw [e128, e64]
  simp only [wf] at ha hb
  refine ⟨by omega, ?_, ?_, ?_, wf_sub a b⟩
  · simp only [operator_sub, sub64]
    omega
  · simp only [operator_sub, sub64, b2n]
    split_ifs with h1 h2 h2 <;> simp only [decide_eq_true_eq] at h1 <;> omega
  · simp only [operator_sub, sub64]
    omega

theorem operator_sub_value_witness :
    wf ⟨3, 4⟩ ∧ wf ⟨3, 5⟩ ∧
    (value (operator_sub ⟨3, 4⟩ ⟨3, 5⟩) : Int)
      = ((value ⟨3, 4⟩ : Int) - (value ⟨3, 5⟩ : Int)) % 2 ^ 128 ∧
    operator_sub ⟨3, 4⟩ ⟨3, 5⟩ = ⟨2 ^ 64 - 1, 2 ^ 64 - 1⟩ :=
  ⟨by decide, by decide,
    (operator_sub_value ⟨3, 4⟩ ⟨3, 5⟩ (by decide) (by decide)).1, by decide⟩

/-- C7: for a well-formed `a` and any shift amount `s`: when `s.UPPER` is not zero or
`s.LOWER >= 128`, `a << s` is zero; otherwise its value is
`(value a * 2 ^ s.LOWER) mod 2 ^ 128`, and limb by limb: a shift by 0 is `a`, a shift
by 64 is `(a.LOWER, 0)`, a shift by `1 <= n < 64` is
`((a.UPPER << n) | (a.LOWER >> (64 - n)), a.LOWER << n)` and a shift by `64 < n < 128`
is `(a.LOWER << (n - 64), 0)`, the limb shifts being 64-bit shifts. -/
theorem operator_shl_cases (a s : uint128_t) (ha : wf a) :
    ((s.UPPER ≠ 0 ∨ s.LOWER ≥ 128) → operator_shl a s = uint128_0) ∧
    (s.UPPER = 0 → s.LOWER < 128 →
      value (operator_shl a s) = (value a * 2 ^ s.LOWER) % 2 ^ 128 ∧
      wf (operator_shl a s)) ∧
    (s.UPPER = 0 → s.LOWER = 0 → operator_shl a s = a) ∧
    (s.UPPER = 0 → s.LOWER = 64 → operator_shl a s = ⟨a.LOWER, 0⟩) ∧
    (s.UPPER = 0 → 1 ≤ s.LOWER → s.LOWER < 64 →
      operator_shl a s
        = ⟨(a.UPPER <<< s.LOWER) % 2 ^ 64 ||| a.LOWER >>> (64 - s.LOWER),
           (a.LOWER <<< s.LOWER) % 2 ^ 64⟩) ∧
    (s.UPPER = 0 → 64 < s.LOWER → s.LOWER < 128 →
      operator_shl a s = ⟨(a.LOWER <<< (s.LOWER - 64)) % 2 ^ 64, 0⟩) := by
  refine ⟨?_, ?_, ?_, ?_, ?_, ?_⟩
  · intro h
    simp only [operator_shl, if_pos h]
  · intro h1 h2
    exact ⟨value_shl ha h1 h2, wf_shl ha s⟩
  · intro h1 h2
    have c1 : ¬ (s.UPPER ≠ 0 ∨ s.LOWER ≥ 128) := by omega
    have c2 : ¬ s.LOWER = 64 := by omega
    simp only [operator_shl, if_neg c1, if_neg c2, if_pos h2]
  · intro h1 h2
    have c1 : ¬ (s.UPPER ≠ 0 ∨ s.LOWER ≥ 128) := by omega
    simp only [operator_shl, if_neg c1, if_pos h2]
  · intro h1 h2 h3
    have c1 : ¬ (s.UPPER ≠ 0 ∨ s.LOWER ≥ 128) := by omega
    have c2 : ¬ s.LOWER = 64 := by omega
    have c3 : ¬ s.LOWER = 0 := by omega
    simp only [operator_shl, if_neg c1, if_neg c2, if_neg c3, if_pos h3]
    rw [shift_or h3 ha.2]
    rfl
  · intro h1 h2 h3
    have c1 : ¬ (s.UPPER ≠ 0 ∨ s.LOWER ≥ 128) := by omega
    have c2 : ¬ s.LOWER = 64 := by omega
    have c3 : ¬ s.LOWER = 0 := by omega
    have c4 : ¬ s.LOWER < 64 := by omega
    have c5 : 128 > s.LOWER ∧ s.LOWER > 64 := by omega
    simp only [operator_shl, if_neg c1, if_neg c2, if_neg c3, if_neg c4, if_pos c5]
    rfl

theorem operator_shl_cases_witness :
    wf ⟨2 ^ 63 + 1, 2 ^ 63 + 5⟩ ∧
    value (operator_shl ⟨2 ^ 63 + 1, 2 ^ 63 + 5⟩ ⟨0, 3⟩)
      = (value ⟨2 ^ 63 + 1, 2 ^ 63 + 5⟩ * 2 ^ 3) % 2 ^ 128 ∧
    operator_shl ⟨2 ^ 63 + 1, 2 ^ 63 + 5⟩ ⟨0, 3⟩ = ⟨12, 40⟩ :=
  ⟨by decide,
    ((operator_shl_cases ⟨2 ^ 63 + 1, 2 ^ 63 + 5⟩ ⟨0, 3⟩ (by decide)).2.1 rfl
      (by decide)).1, by decide⟩

/-- C8: for a well-formed `a` and any shift amount `s`: when `s.UPPER` is not zero or
`s.LOWER >= 128`, `a >> s` is zero; otherwise its value is the floor of
`value a / 2 ^ s.LOWER`, and limb by limb: a shift by 0 is `a`, a shift by 64 is
`(0, a.UPPER)`, a shift by `1 <= n < 64` is
`(a.UPPER >> n, (a.UPPER << (64 - n)) | (a.LOWER >> n))` and a shift by `64 < n < 128`
is `(0, a.UPPER >> (n - 64))`. -/
theorem operator_shr_cases (a s : uint128_t) (ha : wf a) :
    ((s.UPPER ≠ 0 ∨ s.LOWER ≥ 128) → operator_shr a s = uint128_0) ∧
    (s.UPPER = 0 → s.LOWER < 128 →
      value (operator_shr a s) = value a / 2 ^ s.LOWER ∧ wf (operator_shr a s)) ∧
    (s.UPPER = 0 → s.LOWER = 0 → operator_shr a s = a) ∧
    (s.UPPER = 0 → s.LOWER = 64 → operator_shr a s = ⟨0, a.UPPER⟩) ∧
    (s.UPPER = 0 → 1 ≤ s.LOWER → s.LOWER < 64 →
      operator_shr a s
        = ⟨a.UPPER >>> s.LOWER,
           (a.UPPER <<< (64 - s.LOWER)) % 2 ^ 64 ||| a.LOWER >>> s.LOWER⟩) ∧
    (s.UPPER = 0 → 64 < s.LOWER → s.LOWER < 128 →
      operator_shr a s = ⟨0, a.UPPER >>> (s.LOWER - 64)⟩) := by
  refine ⟨?_, ?_, ?_, ?_, ?_, ?_⟩
  · intro h
    simp only [operator_shr, if_pos h]
  · intro h1 h2
    exact ⟨value_shr ha h1 h2, wf_shr ha s⟩
  · intro h1 h2
    have c1 : ¬ (s.UPPER ≠ 0 ∨ s.LOWER ≥ 128) := by omega
    have c2 : ¬ s.LOWER = 64 := by omega
    simp only [operator_shr, if_neg c1, if_neg c2, if_pos h2]
  · intro h1 h2
    have c1 : ¬ (s.UPPER ≠ 0 ∨ s.LOWER ≥ 128) := by omega
    simp only [operator_shr, if_neg c1, if_pos h2]
  · intro h1 h2 h3
    have c1 : ¬ (s.UPPER ≠ 0 ∨ s.LOWER ≥ 128) := by omega
    have c2 : ¬ s.LOWER = 64 := by omega
    have c3 : ¬ s.LOWER = 0 := by omega
    simp only [operator_shr, if_neg c1, if_neg c2, if_neg c3, if_pos h3]
    have hk : 64 - s.LOWER < 64 := by omega
    have e : 64 - (64 - s.LOWER) = s.LOWER := by omega
    have := shift_or (X := a.UPPER) hk ha.2
    rw [e] at this
    rw [this]
    rfl
  · intro h1 h2 h3
    have c1 : ¬ (s.UPPER ≠ 0 ∨ s.LOWER ≥ 128) := by omega
    have c2 : ¬ s.LOWER = 64 := by omega
    have c3 : ¬ s.LOWER = 0 := by omega
    have c4 : ¬ s.LOWER < 64 := by omega
    have c5 : 128 > s.LOWER ∧ s.LOWER > 64 := by omega
    simp only [operator_shr, if_neg c1, if_neg c2, if_neg c3, if_neg c4, if_pos c5]
    rfl

theorem operator_shr_cases_witness :
    wf ⟨9, 2 ^ 63 + 5⟩ ∧
    value (operator_shr ⟨9, 2 ^ 63 + 5⟩ ⟨0, 3⟩) = value ⟨9, 2 ^ 63 + 5⟩ / 2 ^ 3 ∧
    operator_shr ⟨9, 2 ^ 63 + 5⟩ ⟨0, 3⟩ = ⟨1, 2 ^ 61 + 2 ^ 60⟩ :=
  ⟨by decide,
    ((operator_shr_cases ⟨9, 2 ^ 63 + 5⟩ ⟨0, 3⟩ (by decide)).2.1 rfl (by decide)).1,
    by decide⟩

/-- C9: for well-formed `a` and `b` the six comparisons follow the numeric order of
`value`, which is the lexicographic order on `(UPPER, LOWER)`: `a < b` iff
`value a < value b`, `a > b` iff `value a > value b`, `a == b` iff both limbs are
equal, `a != b` is the negation of `a == b`, `a <= b` the negation of `a > b`,
`a >= b` the negation of `a < b`, and exactly one of `a < b`, `a == b`, `a > b` holds. -/
theorem comparison_order (a b : uint128_t) (ha : wf a) (hb : wf b) :
    (operator_lt a b = true ↔ value a < value b) ∧
    (operator_gt a b = true ↔ value a > value b) ∧
    (operator_lt a b = true ↔
      a.UPPER < b.UPPER ∨ (a.UPPER = b.UPPER ∧ a.LOWER < b.LOWER)) ∧
    (operator_gt a b = true ↔
      a.UPPER > b.UPPER ∨ (a.UPPER = b.UPPER ∧ a.LOWER > b.LOWER)) ∧
    (operator_eq a b = true ↔ a.UPPER = b.UPPER ∧ a.LOWER = b.LOWER) ∧
    (operator_eq a b = true ↔ value a = value b) ∧
    operator_ne a b = (!operator_eq a b) ∧
    operator_le a b = (!operator_gt a b) ∧
    operator_ge a b = (!operator_lt a b) ∧
    ((operator_lt a b = true ∧ operator_eq a b = false ∧ operator_gt a b = false) ∨
     (operator_lt a b = false ∧ operator_eq a b = true ∧ operator_gt a b = false) ∨
     (operator_lt a b = false ∧ operator_eq a b = false ∧ operator_gt a b = true)) := by
  have hlt := lt_iff_value ha hb
  have hgt := gt_iff_value ha hb
  have heq : operator_eq a b = true ↔ value a = value b := by
    rw [eq_iff]
    exact ⟨fun h => by rw [h], eq_of_value_eq ha hb⟩
  have hlimb : operator_eq a b = true ↔ a.UPPER = b.UPPER ∧ a.LOWER = b.LOWER := by
    simp [operator_eq]
  refine ⟨hlt, hgt, ?_, ?_, hlimb, heq, ?_, ?_, ?_, ?_⟩
  · simp only [operator_lt]
    split_ifs with h <;> simp only [decide_eq_true_eq] <;> omega
  · simp only [operator_gt]
    split_ifs with h <;> simp only [decide_eq_true_eq] <;> omega
  · simp only [operator_ne, operator_eq]
    by_cases h1 : a.UPPER = b.UPPER <;> by_cases h2 : a.LOWER = b.LOWER <;> simp [h1, h2]
  · cases h1 : operator_gt a b <;> cases h2 : operator_lt a b <;>
      cases h3 : operator_eq a b <;>
      simp only [operator_le, h1, h2, h3] <;>
      first
        | rfl
        | (exfalso
           have h1' := h1
           have h2' := h2
           have h3' := h3
           simp only [← Bool.not_eq_true] at h1' h2' h3'
           simp only [hlt, hgt, heq] at h1' h2' h3'
           omega)
  · cases h1 : operator_gt a b <;> cases h2 : operator_lt a b <;>
      cases h3 : operator_eq a b <;>
      simp only [operator_ge, h1, h2, h3] <;>
      first
        | rfl
        | (exfalso
           have h1' := h1
           have h2' := h2
           have h3' := h3
           simp only [← Bool.not_eq_true] at h1' h2' h3'
           simp only [hlt, hgt, heq] at h1' h2' h3'
           omega)
  · rcases Nat.lt_trichotomy (value a) (value b) with h | h | h
    · refine Or.inl ⟨hlt.mpr h, ?_, ?_⟩
      · rw [← Bool.not_eq_true, heq]
        omega
      · rw [← Bool.not_eq_true, hgt]
        omega
    · refine Or.inr (Or.inl ⟨?_, heq.mpr h, ?_⟩)
      · rw [← Bool.not_eq_true, hlt]
        omega
      · rw [← Bool.not_eq_true, hgt]
        omega
    · refine Or.inr (Or.inr ⟨?_, ?_, hgt.mpr h⟩)
      · rw [← Bool.not_eq_true, hlt]
        omega
      · rw [← Bool.not_eq_true, heq]
        omega

theorem comparison_order_witness :
    wf ⟨1, 0⟩ ∧ wf ⟨0, 2 ^ 64 - 1⟩ ∧
    (operator_lt ⟨1, 0⟩ ⟨0, 2 ^ 64 - 1⟩ = true ↔ value ⟨1, 0⟩ < value ⟨0, 2 ^ 64 - 1⟩) ∧
    (operator_gt ⟨1, 0⟩ ⟨0, 2 ^ 64 - 1⟩ = true ↔ value ⟨1, 0⟩ > value ⟨0, 2 ^ 64 - 1⟩) ∧
    operator_gt ⟨1, 0⟩ ⟨0, 2 ^ 64 - 1⟩ = true :=
  have h := comparison_order ⟨1, 0⟩ ⟨0, 2 ^ 64 - 1⟩ (by decide) (by decide)
  ⟨by decide, by decide, h.1, h.2.1, by decide⟩

/-- C10: for a well-formed `a`, every `base` and every `len`, `str(base, len)` throws
the invalid-argument error exactly when `base < 2` or `base > 16` (so for base 1 and
base 17), and for every base from 2 to 16 it returns a string; the loop ends within
128 iterations, and any larger bound gives the same result. -/
theorem str_invalid_argument_iff (a : uint128_t) (base len : Nat) (ha : wf a) :
    (str a base len = some (.error Exn.invalid_argument) ↔ base < 2 ∨ base > 16) ∧
    (2 ≤ base → base ≤ 16 → ∃ s, str a base len = some (.ok s)) ∧
    str a 1 len = some (.error Exn.invalid_argument) ∧
    str a 17 len = some (.error Exn.invalid_argument) ∧
    (∀ fuel, 128 ≤ fuel → str_fuel fuel a base len = str a base len) := by
  have hok : ∀ fuel, 128 ≤ fuel → 2 ≤ base → base ≤ 16 →
      ∃ s, str_fuel fuel a base len = some (.ok s) ∧ str_fuel 128 a base len = some (.ok s) := by
    intro fuel hf h2 h16
    have c : ¬ (base < 2 ∨ base > 16) := by omega
    simp only [str_fuel, if_neg c]
    split_ifs with hz
    · exact ⟨_, rfl, rfl⟩
    · obtain ⟨s, hs⟩ := strLoop_total h2 h16 127 (a, uint128_0) "" ha (value_lt ha)
      have hs2 := strLoop_fuel (fuel - 128) _ _ _ _ hs
      have e : 127 + 1 + (fuel - 128) = fuel := by omega
      rw [e] at hs2
      simp only [Nat.reduceAdd] at hs
      rw [hs, hs2]
      exact ⟨_, rfl, rfl⟩
  refine ⟨⟨?_, ?_⟩, ?_, ?_, ?_, ?_⟩
  · intro h
    by_contra hc
    obtain ⟨s, _, hs⟩ := hok 128 (Nat.le_refl _) (by omega) (by omega)
    rw [str, hs] at h
    cases h
  · intro h
    simp only [str, str_fuel, if_pos h]
  · intro h2 h16
    obtain ⟨s, _, hs⟩ := hok 128 (Nat.le_refl _) h2 h16
    exact ⟨s, hs⟩
  · simp [str, str_fuel]
  · simp [str, str_fuel]
  · intro fuel hf
    by_cases hc : base < 2 ∨ base > 16
    · simp only [str, str_fuel, if_pos hc]
    · obtain ⟨s, h1, h2⟩ := hok fuel hf (by omega) (by omega)
      rw [str, h1, h2]

theorem str_invalid_argument_iff_witness :
    wf ⟨1, 0⟩ ∧ (∃ s, str ⟨1, 0⟩ 10 0 = some (.ok s)) ∧
    str ⟨1, 0⟩ 17 0 = some (.error Exn.invalid_argument) :=
  have h := str_invalid_argument_iff ⟨1, 0⟩ 10 0 (by decide)
  ⟨by decide, h.2.1 (by decide) (by decide), h.2.2.2.1⟩

theorem pad_zero (s : String) : pad s 0 = s := by
  simp [pad]

theorem pad_eq (s : String) (n : Nat) :
    pad s n = String.mk (List.replicate (n - s.length) '0') ++ s := by
  simp only [pad]
  split_ifs with h
  · rfl
  · have : n - s.length = 0 := by omega
    rw [this]
    apply String.ext
    simp

theorem length_pad (s : String) (n : Nat) : (pad s n).length = max n s.length := by
  rw [pad_eq]
  simp only [String.length_append, String.length_mk, List.length_replicate]
  omega

theorem str_result {a : uint128_t} {base : Nat} (ha : wf a) (h2 : 2 ≤ base)
    (h16 : base ≤ 16) :
    ∃ s0, (∀ len, str a base len = some (.ok (pad s0 len))) ∧
      (value a = 0 → s0 = "0") ∧
      (value a ≠ 0 → numeralLoop base 128 (value a) "" = some s0) := by
  by_cases hz : value a = 0
  · refine ⟨"0", fun len => ?_, fun _ => rfl, fun h => absurd hz h⟩
    rw [str, str_fuel_eq ha h2 h16, if_pos hz]
  · obtain ⟨s0, hs⟩ := numeralLoop_total h2 127 (value a) "" (value_lt ha)
    refine ⟨s0, fun len => ?_, fun h => absurd h hz, fun _ => hs⟩
    rw [str, str_fuel_eq ha h2 h16, if_neg hz, hs]
    rfl

/-- C11: for a well-formed `a` and a base from 2 to 16, `str(base, 0)` returns the
canonical numeral of `a`: `"0"` when `a` is zero; otherwise a non-empty string that
does not start with `'0'`; every character is `"0123456789abcdef"[i]` for some
`i < base`; and read as a base-`base` number, most significant digit first, the string
gives `value a`. -/
theorem str_canonical_numeral (a : uint128_t) (base : Nat) (ha : wf a) (h2 : 2 ≤ base)
    (h16 : base ≤ 16) :
    ∃ s, str a base 0 = some (.ok s) ∧
      (a = uint128_0 → s = "0") ∧
      (a ≠ uint128_0 → s.data ≠ [] ∧ s.data.head? ≠ some '0') ∧
      (∀ c ∈ s.data, ∃ i, i < base ∧ "0123456789abcdef".toList[i]? = some c) ∧
      readNumeral base s.data = value a := by
  have hdigit : ∀ (c : Char) (i : Nat), i < base → digit i = c →
      ∃ i, i < base ∧ "0123456789abcdef".toList[i]? = some c := by
    intro c i hi hc
    refine ⟨i, hi, ?_⟩
    have key : ∀ j : Fin 16, "0123456789abcdef".toList[(j : Nat)]? = some (digit j) := by
      decide
    rw [← hc]
    exact key ⟨i, by omega⟩
  obtain ⟨s0, hstr, hzero, hloop⟩ := str_result ha h2 h16
  refine ⟨s0, by rw [hstr 0, pad_zero], ?_, ?_, ?_, ?_⟩
  · intro h
    exact hzero (by rw [h, value_uint128_0])
  · intro h
    have hv : value a ≠ 0 := fun h0 => h (value_eq_zero h0)
    obtain ⟨pre, hs, hne, _, _, hhead⟩ := numeralLoop_spec h2 h16 _ _ _ _ (hloop hv)
    have e : s0.data = pre := by simpa using hs
    rw [e]
    exact ⟨hne, hhead hv⟩
  · by_cases hv : value a = 0
    · rw [hzero hv]
      intro c hc
      have hc0 : c = '0' := by simpa using hc
      exact hdigit c 0 (by omega) (by rw [hc0]; rfl)
    · obtain ⟨pre, hs, _, hdig, _, _⟩ := numeralLoop_spec h2 h16 _ _ _ _ (hloop hv)
      have e : s0.data = pre := by simpa using hs
      rw [e]
      intro c hc
      obtain ⟨i, hi, hc2⟩ := hdig c hc
      exact hdigit c i hi hc2
  · by_cases hv : value a = 0
    · have h0 : digitValue '0' = 0 := by decide
      rw [hzero hv, hv]
      show readNumeral base ['0'] = 0
      simp [readNumeral, h0]
    · obtain ⟨pre, hs, _, _, hread, _⟩ := numeralLoop_spec h2 h16 _ _ _ _ (hloop hv)
      have e : s0.data = pre := by simpa using hs
      rw [e]
      exact hread

theorem str_canonical_numeral_witness :
    wf ⟨1, 0⟩ ∧ 2 ≤ 10 ∧ 10 ≤ 16 ∧
    ∃ s, str ⟨1, 0⟩ 10 0 = some (.ok s) ∧
      ((⟨1, 0⟩ : uint128_t) = uint128_0 → s = "0") ∧
      ((⟨1, 0⟩ : uint128_t) ≠ uint128_0 → s.data ≠ [] ∧ s.data.head? ≠ some '0') ∧
      (∀ c ∈ s.data, ∃ i, i < 10 ∧ "0123456789abcdef".toList[i]? = some c) ∧
      readNumeral 10 s.data = value ⟨1, 0⟩ :=
  ⟨by decide, by decide, by decide,
    str_canonical_numeral ⟨1, 0⟩ 10 (by decide) (by decide) (by decide)⟩

/-- C12: for a well-formed `a`, a base from 2 to 16 and any `n`, `str(base, n)` is
`str(base, 0)` with exactly `n - length` characters `'0'` in front (none when
`n <= length`, the subtraction being truncated), so its length is the larger of `n`
and the length of `str(base, 0)`, and `str(base, 0)` is a suffix of it. -/
theorem str_padding (a : uint128_t) (base n : Nat) (ha : wf a) (h2 : 2 ≤ base)
    (h16 : base ≤ 16) :
    ∃ s t, str a base 0 = some (.ok s) ∧ str a base n = some (.ok t) ∧
      t = String.mk (List.replicate (n - s.length) '0') ++ s ∧
      t.length = max n s.length ∧ s.data <:+ t.data := by
  obtain ⟨s0, hstr, _, _⟩ := str_result ha h2 h16
  refine ⟨s0, pad s0 n, by rw [hstr 0, pad_zero], hstr n, pad_eq s0 n, length_pad s0 n, ?_⟩
  rw [pad_eq]
  exact ⟨List.replicate (n - s0.length) '0', rfl⟩

theorem str_padding_witness :
    wf ⟨0, 255⟩ ∧
    ∃ s t, str ⟨0, 255⟩ 16 0 = some (.ok s) ∧ str ⟨0, 255⟩ 16 4 = some (.ok t) ∧
      t = String.mk (List.replicate (4 - s.length) '0') ++ s ∧
      t.length = max 4 s.length ∧ s.data <:+ t.data :=
  ⟨by decide, str_padding ⟨0, 255⟩ 16 4 (by decide) (by decide) (by decide)⟩

/-- C13: the documented renderings: `uint128_t(0).str()` is `"0"`,
`uint128_t(255).str(16)` is `"ff"`, `uint128_t(1, 0).str(10)` is
`"18446744073709551616"` and `uint128_t(255).str(16, 4)` is `"00ff"` (the defaults of
`str` are base 10 and length 0). -/
theorem str_documented_renderings :
    str ⟨0, 0⟩ 10 0 = some (.ok "0") ∧
    str ⟨0, 255⟩ 16 0 = some (.ok "ff") ∧
    str ⟨1, 0⟩ 10 0 = some (.ok "18446744073709551616") ∧
    str ⟨0, 255⟩ 16 4 = some (.ok "00ff") := by
  have e1 : numeralLoop 16 128 (value ⟨0, 255⟩) "" = some "ff" := by decide
  have e2 : numeralLoop 10 128 (value ⟨1, 0⟩) "" = some "18446744073709551616" := by decide
  have p1 : pad "ff" 4 = "00ff" := by decide
  have p2 : pad "ff" 0 = "ff" := by decide
  have p3 : pad "18446744073709551616" 0 = "18446744073709551616" := by decide
  have v1 : value ⟨0, 255⟩ ≠ 0 := by decide
  have v2 : value ⟨1, 0⟩ ≠ 0 := by decide
  refine ⟨?_, ?_, ?_, ?_⟩
  · rw [str, str_fuel_eq (by decide) (by decide) (by decide), if_pos (by decide)]
    rfl
  · rw [str, str_fuel_eq (by decide) (by decide) (by decide), if_neg v1, e1]
    simp only [Option.map_some', p2]
  · rw [str, str_fuel_eq (by decide) (by decide) (by decide), if_neg v2, e2]
    simp only [Option.map_some', p3]
  · rw [str, str_fuel_eq (by decide) (by decide) (by decide), if_neg v1, e1]
    simp only [Option.map_some', p1]

/-- C14 (code): `1 * 1` is returned as `(0x100000000, 0)`, the value `2 ^ 96`, and
`5 * 1` as `(0x500000000, 0)`; neither compares equal to the left operand. The cause is
the table lookup `ref(x, y) = y*3+x` of `operator*`. -/
theorem operator_mul_one_right :
    operator_mul uint128_1 uint128_1 = ⟨0x100000000, 0⟩ ∧
    operator_eq (operator_mul uint128_1 uint128_1) uint128_1 = false ∧
    operator_mul ⟨0, 5⟩ uint128_1 = ⟨0x500000000, 0⟩ ∧
    operator_eq (operator_mul ⟨0, 5⟩ uint128_1) ⟨0, 5⟩ = false := by
  decide

theorem operator_mul_zero (a : uint128_t) : operator_mul a uint128_0 = uint128_0 := by
  simp [operator_mul, uint128_0, mul64, shr64, shl64, add64, ref]

/-- C15: for every well-formed `a`: `a + 0 == a`, `a * 0 == 0`, `a - a == 0`,
`a ^ a == 0`, `a & a == a` and `a | a == a`, with `==` the operator of the class and
0 the value `uint128_0()`. -/
theorem zero_and_self_identities (a : uint128_t) (ha : wf a) :
    operator_eq (operator_add a uint128_0) a = true ∧
    operator_eq (operator_mul a uint128_0) uint128_0 = true ∧
    operator_eq (operator_sub a a) uint128_0 = true ∧
    operator_eq (operator_xor a a) uint128_0 = true ∧
    operator_eq (operator_and a a) a = true ∧
    operator_eq (operator_or a a) a = true := by
  simp only [eq_iff]
  refine ⟨?_, operator_mul_zero a, ?_, ?_, ?_, ?_⟩
  · apply eq_of_value_eq (wf_add _ _) ha
    rw [value_add ha wf_uint128_0, value_uint128_0]
    have := value_lt ha
    omega
  · apply eq_of_value_eq (wf_sub _ _) wf_uint128_0
    rw [value_sub ha ha, value_uint128_0]
    have := value_lt ha
    omega
  · simp [operator_xor, uint128_0]
  · simp [operator_and]
  · simp [operator_or]

theorem zero_and_self_identities_witness :
    wf ⟨7, 2 ^ 64 - 1⟩ ∧
    operator_eq (operator_add ⟨7, 2 ^ 64 - 1⟩ uint128_0) ⟨7, 2 ^ 64 - 1⟩ = true ∧
    operator_eq (operator_mul ⟨7, 2 ^ 64 - 1⟩ uint128_0) uint128_0 = true ∧
    operator_eq (operator_sub ⟨7, 2 ^ 64 - 1⟩ ⟨7, 2 ^ 64 - 1⟩) uint128_0 = true ∧
    operator_eq (operator_xor ⟨7, 2 ^ 64 - 1⟩ ⟨7, 2 ^ 64 - 1⟩) uint128_0 = true ∧
    operator_eq (operator_and ⟨7, 2 ^ 64 - 1⟩ ⟨7, 2 ^ 64 - 1⟩) ⟨7, 2 ^ 64 - 1⟩ = true ∧
    operator_eq (operator_or ⟨7, 2 ^ 64 - 1⟩ ⟨7, 2 ^ 64 - 1⟩) ⟨7, 2 ^ 64 - 1⟩ = true :=
  ⟨by decide, zero_and_self_identities ⟨7, 2 ^ 64 - 1⟩ (by decide)⟩

/-- C16 (code): with none of the three flags set, inserting the value 0 leaves the
stream as it was and writes nothing, although `str(10)` of that value is `"0"`: the
chain `if (oct) ... else if (dec) ... else if (hex) ...` has no final `else`. -/
theorem stream_insert_no_flag :
    str ⟨0, 0⟩ 10 0 = some (.ok "0") ∧
    stream_insert ⟨false, false, false, ""⟩ ⟨0, 0⟩ = some (.ok ⟨false, false, false, ""⟩) ∧
    stream_insert ⟨false, false, false, ""⟩ ⟨0, 0⟩
      ≠ some (.ok ⟨false, false, false, "" ++ "0"⟩) := by
  refine ⟨rfl, rfl, ?_⟩
  intro h
  have h2 : stream_insert ⟨false, false, false, ""⟩ ⟨0, 0⟩
      = some (.ok ⟨false, false, false, ""⟩) := rfl
  rw [h2] at h
  injection h with h
  injection h with h
  exact absurd h (by decide)

/-- Stream insertion with a flag set: for a well-formed `a` the renderings `str(8)`,
`str(10)` and `str(16)` exist, and the flags are tested in the order oct, dec, hex:
the rendering of the first flag that is set is appended to what the stream holds. -/
theorem stream_insert_flag_set (stream : ostream) (a : uint128_t) (ha : wf a) :
    ∃ s8 s10 s16, str a 8 0 = some (.ok s8) ∧ str a 10 0 = some (.ok s10) ∧
      str a 16 0 = some (.ok s16) ∧
      (stream.oct = true → stream_insert stream a
        = some (.ok ⟨stream.oct, stream.dec, stream.hex, stream.written ++ s8⟩)) ∧
      (stream.oct = false → stream.dec = true → stream_insert stream a
        = some (.ok ⟨stream.oct, stream.dec, stream.hex, stream.written ++ s10⟩)) ∧
      (stream.oct = false → stream.dec = false → stream.hex = true → stream_insert stream a
        = some (.ok ⟨stream.oct, stream.dec, stream.hex, stream.written ++ s16⟩)) := by
  obtain ⟨s8, h8, _, _⟩ := str_result ha (by decide : 2 ≤ 8) (by decide : 8 ≤ 16)
  obtain ⟨s10, h10, _, _⟩ := str_result ha (by decide : 2 ≤ 10) (by decide : 10 ≤ 16)
  obtain ⟨s16, h16, _, _⟩ := str_result ha (by decide : 2 ≤ 16) (by decide : 16 ≤ 16)
  have e8 := h8 0
  have e10 := h10 0
  have e16 := h16 0
  rw [pad_zero] at e8 e10 e16
  refine ⟨s8, s10, s16, e8, e10, e16, ?_, ?_, ?_⟩
  · intro c1
    cases stream with
    | mk o d h w =>
      simp only at c1
      subst c1
      simp only [stream_insert, if_true, e8]
      rfl
  · intro c1 c2
    cases stream with
    | mk o d h w =>
      simp only at c1 c2
      subst c1 c2
      simp only [stream_insert, if_true, Bool.false_eq_true, if_false, e10]
      rfl
  · intro c1 c2 c3
    cases stream with
    | mk o d h w =>
      simp only at c1 c2 c3
      subst c1 c2 c3
      simp only [stream_insert, if_true, Bool.false_eq_true, if_false, e16]
      rfl

theorem stream_insert_flag_set_witness :
    wf ⟨0, 0⟩ ∧
    ∃ s8 s10 s16, str ⟨0, 0⟩ 8 0 = some (.ok s8) ∧ str ⟨0, 0⟩ 10 0 = some (.ok s10) ∧
      str ⟨0, 0⟩ 16 0 = some (.ok s16) ∧
      (true = true → stream_insert ⟨true, false, true, "x"⟩ ⟨0, 0⟩
        = some (.ok ⟨true, false, true, "x" ++ s8⟩)) ∧
      (true = false → false = true → stream_insert ⟨true, false, true, "x"⟩ ⟨0, 0⟩
        = some (.ok ⟨true, false, true, "x" ++ s10⟩)) ∧
      (true = false → false = false → true = true →
        stream_insert ⟨true, false, true, "x"⟩ ⟨0, 0⟩
          = some (.ok ⟨true, false, true, "x" ++ s16⟩)) :=
  ⟨by decide, stream_insert_flag_set ⟨true, false, true, "x"⟩ ⟨0, 0⟩ (by decide)⟩

theorem wf_compl {a : uint128_t} (ha : wf a) : wf (operator_compl a) := by
  simp only [wf, operator_compl, not64] at ha ⊢
  omega

theorem value_compl {a : uint128_t} (ha : wf a) :
    value (operator_compl a) = 2 ^ 128 - 1 - value a := by
  simp only [wf] at ha
  simp only [value, operator_compl, not64]
  omega

/-- C17: for every well-formed `a`, unary minus is `~a + 1`, its value is
`(2 ^ 128 - value a) mod 2 ^ 128`, `a + (-a) == 0` and `-0 == 0`. -/
theorem operator_neg_value (a : uint128_t) (ha : wf a) :
    operator_eq (operator_neg a) (operator_add (operator_compl a) uint128_1) = true ∧
    value (operator_neg a) = (2 ^ 128 - value a) % 2 ^ 128 ∧
    wf (operator_neg a) ∧
    operator_eq (operator_add a (operator_neg a)) uint128_0 = true ∧
    operator_eq (operator_neg uint128_0) uint128_0 = true := by
  have hA := value_lt ha
  have hv : value (operator_neg a) = (2 ^ 128 - value a) % 2 ^ 128 := by
    rw [operator_neg, value_add (wf_compl ha) wf_uint128_1, value_compl ha, value_uint128_1]
    omega
  have hw : wf (operator_neg a) := wf_add _ _
  refine ⟨(eq_iff _ _).mpr rfl, hv, hw, ?_, by decide⟩
  rw [eq_iff]
  apply eq_of_value_eq (wf_add _ _) wf_uint128_0
  rw [value_add ha hw, hv, value_uint128_0]
  omega

theorem operator_neg_value_witness :
    wf ⟨0, 1⟩ ∧
    value (operator_neg ⟨0, 1⟩) = (2 ^ 128 - value ⟨0, 1⟩) % 2 ^ 128 ∧
    operator_neg ⟨0, 1⟩ = ⟨2 ^ 64 - 1, 2 ^ 64 - 1⟩ :=
  ⟨by decide, (operator_neg_value ⟨0, 1⟩ (by decide)).2.1, by decide⟩

/-- C18: for every well-formed `a`: pre-increment leaves the receiver at
`(value a + 1) mod 2 ^ 128` and returns that receiver; post-increment leaves the same
receiver and returns the old `a`; pre- and post-decrement do the same with
`(value a - 1) mod 2 ^ 128`; and post-incrementing the maximum value returns the
maximum value and leaves zero. Each pair is (receiver afterwards, value returned). -/
theorem increment_decrement (a : uint128_t) (ha : wf a) :
    (value (pre_increment a).1 = (value a + 1) % 2 ^ 128 ∧ wf (pre_increment a).1 ∧
      (pre_increment a).2 = (pre_increment a).1) ∧
    (value (post_increment a).1 = (value a + 1) % 2 ^ 128 ∧ wf (post_increment a).1 ∧
      (post_increment a).2 = a) ∧
    ((value (pre_decrement a).1 : Int) = ((value a : Int) - 1) % 2 ^ 128 ∧
      wf (pre_decrement a).1 ∧ (pre_decrement a).2 = (pre_decrement a).1) ∧
    ((value (post_decrement a).1 : Int) = ((value a : Int) - 1) % 2 ^ 128 ∧
      wf (post_decrement a).1 ∧ (post_decrement a).2 = a) ∧
    post_increment ⟨2 ^ 64 - 1, 2 ^ 64 - 1⟩ = (uint128_0, ⟨2 ^ 64 - 1, 2 ^ 64 - 1⟩) := by
  have hA := value_lt ha
  have hinc : value (operator_add_assign a uint128_1) = (value a + 1) % 2 ^ 128 :=
    value_inc ha
  have winc : wf (operator_add_assign a uint128_1) := wf_inc a
  have hdec : (value (operator_sub_assign a uint128_1) : Int)
      = ((value a : Int) - 1) % 2 ^ 128 := by
    have e128 : (2 : Int) ^ 128 = 340282366920938463463374607431768211456 := by norm_num
    have := value_sub ha wf_uint128_1
    rw [value_uint128_1] at this
    rw [operator_sub_assign, this, e128]
    omega
  have wdec : wf (operator_sub_assign a uint128_1) := wf_sub _ _
  exact ⟨⟨hinc, winc, rfl⟩, ⟨hinc, winc, rfl⟩, ⟨hdec, wdec, rfl⟩, ⟨hdec, wdec, rfl⟩,
    by decide⟩

theorem increment_decrement_witness :
    wf ⟨0, 2 ^ 64 - 1⟩ ∧
    value (post_increment ⟨0, 2 ^ 64 - 1⟩).1 = (value ⟨0, 2 ^ 64 - 1⟩ + 1) % 2 ^ 128 ∧
    post_increment ⟨0, 2 ^ 64 - 1⟩ = (⟨1, 0⟩, ⟨0, 2 ^ 64 - 1⟩) ∧
    pre_decrement ⟨1, 0⟩ = (⟨0, 2 ^ 64 - 1⟩, ⟨0, 2 ^ 64 - 1⟩) :=
  ⟨by decide, (increment_decrement ⟨0, 2 ^ 64 - 1⟩ (by decide)).2.1.1, by decide,
    by decide⟩

theorem sub64_zero_b2n (u : Nat) (b : Bool) :
    sub64 (sub64 u 0) (b2n b) = sub64 u (b2n b) := by
  cases b
  · simp only [sub64, b2n, Bool.false_eq_true, if_false]
    omega
  · simp only [sub64, b2n, if_true]
    omega

theorem decide_le_split (x y : Nat) :
    decide (x ≤ y) = (decide (x < y) || decide (y = x)) := by
  rw [Bool.eq_iff_iff]
  simp only [Bool.or_eq_true, decide_eq_true_eq]
  omega

theorem decide_le_split_right (x y : Nat) :
    decide (x ≤ y) = (decide (x < y) || decide (x = y)) := by
  rw [Bool.eq_iff_iff]
  simp only [Bool.or_eq_true, decide_eq_true_eq]
  omega

theorem or_b2n_ne_zero (u : Nat) (b : Bool) :
    decide ((u ||| b2n b) ≠ 0) = (decide (u ≠ 0) || b) := by
  cases b <;> simp [b2n, or_eq_zero]

/-- C19: for every `a` and every native operand `n` (a natural number, converted to
`uint64_t` as `n mod 2 ^ 64`), each member operator with a native right operand returns
what the 128-bit operator returns on `a` and `uint128_t(n)`, for `&`, `|`, `^`, `+`,
`-`, `==`, `!=`, `<`, `>`, `<=` and `>=`; `a & n` has a zero high limb, `a | n` and
`a ^ n` keep the high limb of `a`, and when `a.UPPER` is not zero `a > n` is true and
`a < n` and `a == n` are false. -/
theorem native_right_operand (a : uint128_t) (n : Nat) :
    operator_and_T a n = operator_and a (ofT n) ∧
    operator_or_T a n = operator_or a (ofT n) ∧
    operator_xor_T a n = operator_xor a (ofT n) ∧
    operator_add_T a n = operator_add a (ofT n) ∧
    operator_sub_T a n = operator_sub a (ofT n) ∧
    operator_eq_T a n = operator_eq a (ofT n) ∧
    operator_ne_T a n = operator_ne a (ofT n) ∧
    operator_lt_T a n = operator_lt a (ofT n) ∧
    operator_gt_T a n = operator_gt a (ofT n) ∧
    operator_le_T a n = operator_le a (ofT n) ∧
    operator_ge_T a n = operator_ge a (ofT n) ∧
    (operator_and_T a n).UPPER = 0 ∧
    (operator_or_T a n).UPPER = a.UPPER ∧
    (operator_xor_T a n).UPPER = a.UPPER ∧
    (a.UPPER ≠ 0 → operator_gt_T a n = true ∧ operator_lt_T a n = false ∧
      operator_eq_T a n = false) := by
  have heq : operator_eq_T a n = operator_eq a (ofT n) := by
    simp only [operator_eq_T, operator_eq, ofT]
    by_cases h : a.UPPER = 0 <;> simp [h]
  have hlt : operator_lt_T a n = operator_lt a (ofT n) := by
    simp only [operator_lt_T, operator_lt, ofT]
    by_cases h : a.UPPER = 0 <;> simp [h]
  have hgt : operator_gt_T a n = operator_gt a (ofT n) := by
    simp only [operator_gt_T, operator_gt, ofT]
    by_cases h : a.UPPER = 0
    · simp [h]
    · simp [h]
      omega
  refine ⟨?_, ?_, ?_, ?_, ?_, heq, ?_, hlt, hgt, ?_, ?_, rfl, rfl, rfl, ?_⟩
  · simp [operator_and_T, operator_and, ofT]
  · simp [operator_or_T, operator_or, ofT]
  · simp [operator_xor_T, operator_xor, ofT]
  · simp only [operator_add_T, operator_add, ofT, add64, b2n]
    congr 1
    split_ifs <;> omega
  · simp only [operator_sub_T, operator_sub, ofT, sub64_zero_b2n]
  · simp only [operator_ne_T, or_b2n_ne_zero, operator_ne, ofT]
  · simp only [operator_le_T, operator_le, heq, hlt]
  · simp only [operator_ge_T, operator_ge, heq, hgt]
  · intro h
    simp [operator_gt_T, operator_lt_T, operator_eq_T, h]

/-- C20: for every native operand `n` and every `a`, the free operators with the native
operand on the left return what the member operators with the native operand on the
right return: `n + a` is `a + n`, `n * a` is `a * n`, likewise `&`, `|`, `^`, `==` and
`!=`, and `n < a` is `a > n`, `n > a` is `a < n`, `n <= a` is `a >= n`, `n >= a` is
`a <= n`. -/
theorem native_left_operand (n : Nat) (a : uint128_t) :
    free_add n a = operator_add_T a n ∧
    free_mul n a = operator_mul_T a n ∧
    free_and n a = operator_and_T a n ∧
    free_or n a = operator_or_T a n ∧
    free_xor n a = operator_xor_T a n ∧
    free_eq n a = operator_eq_T a n ∧
    free_ne n a = operator_ne_T a n ∧
    free_lt n a = operator_gt_T a n ∧
    free_gt n a = operator_lt_T a n ∧
    free_le n a = operator_ge_T a n ∧
    free_ge n a = operator_le_T a n := by
  refine ⟨rfl, rfl, rfl, rfl, rfl, ?_, ?_, ?_, ?_, ?_, ?_⟩
  · simp only [free_eq, operator_eq_T]
    by_cases h : a.UPPER = 0 <;> simp [h, eq_comm]
  · simp only [free_ne, operator_ne_T, or_b2n_ne_zero]
    by_cases h : a.UPPER = 0 <;> simp [h, eq_comm]
  · simp only [free_lt, operator_gt_T]
    by_cases h : a.UPPER = 0 <;> simp [h]
  · simp only [free_gt, operator_lt_T]
    by_cases h : a.UPPER = 0 <;> simp [h]
  · simp only [free_le, operator_ge_T, operator_gt_T, operator_eq_T]
    by_cases h : a.UPPER = 0
    · simp [h]
      exact decide_le_split _ _
    · simp [h]
  · simp only [free_ge, operator_le_T, operator_lt_T, operator_eq_T]
    by_cases h : a.UPPER = 0
    · simp [h]
      exact decide_le_split_right _ _
    · simp [h]

/-! ## Native left operands, construction, conversion and `bits` -/

theorem sub_T_eq_sub (a : uint128_t) (n : Nat) :
    operator_sub_T a n = operator_sub a (ofT n) := by
  simp only [operator_sub_T, operator_sub, ofT, sub64_zero_b2n]

theorem wf_neg (a : uint128_t) : wf (operator_neg a) := wf_add _ _

theorem value_neg {a : uint128_t} (ha : wf a) :
    value (operator_neg a) = (2 ^ 128 - value a) % 2 ^ 128 := by
  have hA := value_lt ha
  rw [operator_neg, value_add (wf_compl ha) wf_uint128_1, value_compl ha, value_uint128_1]
  omega

/-- C21: for every native left operand `n` (converted to `uint64_t` as `n mod 2 ^ 64`)
and every well-formed `a`, the free operators that do not commute act on the promoted
operand `uint128_t(n)`: `n - a`, computed as `-(a - n)`, is `uint128_t(n) - a`;
`n << a` is `uint128_t(n) << a`; `n >> a` is `uint128_t(n) >> a`; `n / a` and `n % a`
are `uint128_t(n) / a` and `uint128_t(n) % a`, which throw the domain error when `a` is
zero and otherwise return the quotient and remainder of `n mod 2 ^ 64` by `value a`. -/
theorem native_left_promoted (n : Nat) (a : uint128_t) (ha : wf a) :
    free_sub n a = operator_sub (ofT n) a ∧
    operator_eq (free_sub n a) (operator_sub (ofT n) a) = true ∧
    free_shl n a = operator_shl (ofT n) a ∧
    free_shr n a = operator_shr (ofT n) a ∧
    free_div n a = operator_div (ofT n) a ∧
    free_mod n a = operator_mod (ofT n) a ∧
    (a = uint128_0 → free_div n a = .error Exn.domain_error ∧
      free_mod n a = .error Exn.domain_error) ∧
    (a ≠ uint128_0 → ∃ q r, free_div n a = .ok q ∧ free_mod n a = .ok r ∧
      value q = (n % 2 ^ 64) / value a ∧ value r = (n % 2 ^ 64) % value a) := by
  have hn : wf (ofT n) := wf_ofT n
  have hvn : value (ofT n) = n % 2 ^ 64 := by simp [value, ofT]
  have hsub : free_sub n a = operator_sub (ofT n) a := by
    apply eq_of_value_eq (wf_neg _) (wf_sub _ _)
    have hA := value_lt ha
    have hN := value_lt hn
    show value (operator_neg (operator_sub_T a n)) = value (operator_sub (ofT n) a)
    rw [sub_T_eq_sub, value_neg (wf_sub _ _), value_sub ha hn, value_sub hn ha]
    omega
  refine ⟨hsub, (eq_iff _ _).mpr hsub, rfl, rfl, rfl, rfl, ?_, ?_⟩
  · intro h
    rw [h]
    exact ⟨rfl, rfl⟩
  · intro h
    obtain ⟨q, r, hd, _, _, hq, hr⟩ := divmod_spec hn ha h
    rw [hvn] at hq hr
    refine ⟨q, r, ?_, ?_, hq, hr⟩
    · simp only [free_div, operator_div, hd]
      rfl
    · simp only [free_mod, operator_mod, hd]
      rfl

theorem native_left_promoted_witness :
    wf ⟨0, 5⟩ ∧
    free_sub 3 ⟨0, 5⟩ = operator_sub (ofT 3) ⟨0, 5⟩ ∧
    free_sub 3 ⟨0, 5⟩ = ⟨2 ^ 64 - 1, 2 ^ 64 - 2⟩ :=
  ⟨by decide, (native_left_promoted 3 ⟨0, 5⟩ (by decide)).1, by decide⟩

/-- C22: for every native integer `v`, `uint128_t(v)` has `UPPER = 0` and
`LOWER = v mod 2 ^ 64`; a value from 0 to `2 ^ 64 - 1` is kept, a negative value down
to `-2 ^ 63` becomes `2 ^ 64 + v`, and the sign is not extended into the high limb:
`uint128_t(-1)` has value `2 ^ 64 - 1`, not `2 ^ 128 - 1`. -/
theorem widening_construction (v : Int) :
    (uint128_T v).UPPER = 0 ∧
    ((uint128_T v).LOWER : Int) = v % 2 ^ 64 ∧
    wf (uint128_T v) ∧
    (value (uint128_T v) : Int) = v % 2 ^ 64 ∧
    (0 ≤ v → v < 2 ^ 64 → (value (uint128_T v) : Int) = v) ∧
    (-2 ^ 63 ≤ v → v < 0 → (value (uint128_T v) : Int) = 2 ^ 64 + v) ∧
    (0 ≤ v → uint128_T v = ofT v.toNat) ∧
    uint128_T v = ofT (to_uint64 v) ∧
    uint128_T (-1) = ⟨0, 2 ^ 64 - 1⟩ ∧
    value (uint128_T (-1)) = 2 ^ 64 - 1 ∧
    value (uint128_T (-1)) ≠ 2 ^ 128 - 1 := by
  have e64 : (2 : Int) ^ 64 = 18446744073709551616 := by norm_num
  have e63 : (2 : Int) ^ 63 = 9223372036854775808 := by norm_num
  have hlow : ((to_uint64 v : Nat) : Int) = v % 2 ^ 64 := by
    simp only [to_uint64]
    rw [e64]
    omega
  have hlt : to_uint64 v < 2 ^ 64 := by
    have := hlow
    rw [e64] at this
    omega
  have hval : value (uint128_T v) = to_uint64 v := by
    simp [value, uint128_T]
  refine ⟨rfl, hlow, ⟨by simp [uint128_T], hlt⟩, by rw [hval, hlow], ?_, ?_, ?_, ?_,
    by decide, by decide, by decide⟩
  · intro h0 h1
    rw [hval, hlow]
    rw [e64] at h1 ⊢
    omega
  · intro h0 h1
    rw [hval, hlow]
    rw [e63] at h0
    rw [e64]
    omega
  · intro h0
    simp only [uint128_T, ofT]
    congr 1
    rw [e64] at hlow
    omega
  · simp only [uint128_T, ofT]
    congr 1
    omega

/-- C23: for every `a` the conversions to `uint8_t`, `uint16_t`, `uint32_t` and
`uint64_t` return `LOWER mod 2 ^ W`, the low `W` bits of the whole value, whatever the
high limb is; the conversion to `bool` is true exactly when `UPPER` or `LOWER` is not
zero; for a well-formed `a` the conversion to `uint64_t` is `LOWER` itself, and
converting `uint128_t(v)` back to `uint64_t` returns `v` for every `v < 2 ^ 64`. -/
theorem narrowing_conversion (a : uint128_t) :
    (operator_uint8_t a = a.LOWER % 2 ^ 8 ∧ operator_uint8_t a = value a % 2 ^ 8) ∧
    (operator_uint16_t a = a.LOWER % 2 ^ 16 ∧ operator_uint16_t a = value a % 2 ^ 16) ∧
    (operator_uint32_t a = a.LOWER % 2 ^ 32 ∧ operator_uint32_t a = value a % 2 ^ 32) ∧
    (operator_uint64_t a = a.LOWER % 2 ^ 64 ∧ operator_uint64_t a = value a % 2 ^ 64) ∧
    (operator_bool a = true ↔ a.UPPER ≠ 0 ∨ a.LOWER ≠ 0) ∧
    (wf a → operator_uint64_t a = a.LOWER) ∧
    (∀ v : Nat, v < 2 ^ 64 → operator_uint64_t (ofT v) = v) ∧
    (∀ v : Int, operator_uint64_t (uint128_T v) = to_uint64 v) := by
  refine ⟨⟨rfl, ?_⟩, ⟨rfl, ?_⟩, ⟨rfl, ?_⟩, ⟨rfl, ?_⟩, ?_, ?_, ?_, ?_⟩
  · simp only [operator_uint8_t, value]
    omega
  · simp only [operator_uint16_t, value]
    omega
  · simp only [operator_uint32_t, value]
    omega
  · simp only [operator_uint64_t, value]
    omega
  · simp only [operator_bool, decide_eq_true_eq, ne_eq, or_eq_zero]
    tauto
  · intro h
    simp only [operator_uint64_t]
    exact Nat.mod_eq_of_lt h.2
  · intro v hv
    simp only [operator_uint64_t, ofT]
    omega
  · intro v
    have e64 : (2 : Int) ^ 64 = 18446744073709551616 := by norm_num
    simp only [operator_uint64_t, uint128_T, to_uint64]
    rw [e64]
    omega

/-- C24: `bits()` of zero is 0, and for every well-formed non-zero `a`, `bits a` is the
position of the highest set bit counted from 1: it lies in `1..128`,
`2 ^ (bits a - 1) <= value a < 2 ^ bits a`, it is the only `n >= 1` with
`2 ^ (n - 1) <= value a < 2 ^ n`, and it is 64 plus the bit length of `UPPER` when
`UPPER` is not zero and the bit length of `LOWER` otherwise. -/
theorem bits_highest_set_bit (a : uint128_t) (ha : wf a) :
    bits uint128_0 = 0 ∧
    (a ≠ uint128_0 →
      1 ≤ bits a ∧ bits a ≤ 128 ∧ 2 ^ (bits a - 1) ≤ value a ∧ value a < 2 ^ bits a ∧
      ∀ n, 1 ≤ n → 2 ^ (n - 1) ≤ value a → value a < 2 ^ n → n = bits a) ∧
    (a.UPPER ≠ 0 → bits a = 64 + Nat.size a.UPPER) ∧
    (a.UPPER = 0 → bits a = Nat.size a.LOWER) := by
  have sU := size_limb ha.1
  have sL := size_limb ha.2
  refine ⟨?_, ?_, ?_, ?_⟩
  · rw [bits_eq wf_uint128_0, value_uint128_0]
    exact Nat.size_zero
  · intro hne
    have hv : value a ≠ 0 := fun h => hne (value_eq_zero h)
    have hpos : bits a ≠ 0 := by
      rw [bits_eq ha]
      exact Nat.size_eq_zero.not.mpr hv
    have hlow : 2 ^ (bits a - 1) ≤ value a := by
      have h1 : bits a - 1 < Nat.size (value a) := by
        rw [← bits_eq ha]
        omega
      exact Nat.lt_size.mp h1
    refine ⟨by omega, bits_le ha, hlow, value_lt_pow_bits ha, ?_⟩
    intro n hn h1 h2
    rw [bits_eq ha]
    apply Nat.le_antisymm
    · have : n - 1 < Nat.size (value a) := Nat.lt_size.mpr h1
      omega
    · exact Nat.size_le.mpr h2
  · intro h
    simp only [bits, if_pos h]
    exact bitsLoop_eq _ _ (by omega)
  · intro h
    have h0 : ¬ a.UPPER ≠ 0 := by omega
    simp only [bits, if_neg h0]
    rw [bitsLoop_eq _ _ (by omega)]
    omega

theorem bits_highest_set_bit_witness :
    wf ⟨1, 0⟩ ∧
    ((⟨1, 0⟩ : uint128_t) ≠ uint128_0 →
      1 ≤ bits ⟨1, 0⟩ ∧ bits ⟨1, 0⟩ ≤ 128 ∧ 2 ^ (bits ⟨1, 0⟩ - 1) ≤ value ⟨1, 0⟩ ∧
      value ⟨1, 0⟩ < 2 ^ bits ⟨1, 0⟩ ∧
      ∀ n, 1 ≤ n → 2 ^ (n - 1) ≤ value ⟨1, 0⟩ → value ⟨1, 0⟩ < 2 ^ n → n = bits ⟨1, 0⟩) :=
  ⟨by decide, (bits_highest_set_bit ⟨1, 0⟩ (by decide)).2.1⟩

/-! ## The loop of `divmod`, iteration by iteration -/

theorem divmodLoop_succ (lhs rhs : uint128_t) (x : Nat) (qr : uint128_t × uint128_t) :
    divmodLoop lhs rhs (x + 1) qr = divmodLoop lhs rhs x (divmodBody lhs rhs x qr) := by
  simp only [divmodLoop, divmodBody]
  split_ifs <;> rfl

theorem divmodLoop_after (lhs rhs : uint128_t) (n : Nat) :
    ∀ k, k ≤ n → divmodLoop lhs rhs n (uint128_0, uint128_0)
      = divmodLoop lhs rhs (n - k) (divmodAfter lhs rhs n k) := by
  intro k
  induction k with
  | zero =>
    intro _
    rfl
  | succ k ih =>
    intro hk
    have e : n - k = (n - (k + 1)) + 1 := by omega
    rw [ih (by omega), e, divmodLoop_succ]
    rfl

theorem divmodBody_step {lhs rhs : uint128_t} (hl : wf lhs) (hr : wf rhs)
    (hpos : 0 < value rhs) {x : Nat} (hx : x < 128) {qr : uint128_t × uint128_t}
    (h1 : wf qr.1) (h2 : wf qr.2)
    (h3 : value qr.1 * value rhs + value qr.2 = value lhs / 2 ^ (x + 1))
    (h4 : value qr.2 < value rhs) :
    value (operator_shl_assign qr.1 uint128_1) = 2 * value qr.1 ∧
    value (operator_shl_assign qr.2 uint128_1) = 2 * value qr.2 ∧
    2 * value qr.1 + 1 < 2 ^ 128 ∧
    2 * value qr.2 + (value lhs / 2 ^ x) % 2 < 2 ^ 128 ∧
    wf (divmodBody lhs rhs x qr).1 ∧ wf (divmodBody lhs rhs x qr).2 ∧
    value (divmodBody lhs rhs x qr).1
      = 2 * value qr.1
        + (if value rhs ≤ 2 * value qr.2 + (value lhs / 2 ^ x) % 2 then 1 else 0) ∧
    value (divmodBody lhs rhs x qr).2
        + (if value rhs ≤ 2 * value qr.2 + (value lhs / 2 ^ x) % 2 then value rhs else 0)
      = 2 * value qr.2 + (value lhs / 2 ^ x) % 2 ∧
    value (divmodBody lhs rhs x qr).2 < value rhs ∧
    value (divmodBody lhs rhs x qr).1 * value rhs + value (divmodBody lhs rhs x qr).2
      = value lhs / 2 ^ x := by
  have hA := value_lt hl
  have hhalf : value lhs / 2 ^ (x + 1) = value lhs / 2 ^ x / 2 := by
    rw [Nat.pow_succ, Nat.div_div_eq_div_mul]
  have hsmall : value lhs / 2 ^ x / 2 < 2 ^ 127 := by
    have : value lhs / 2 ^ x ≤ value lhs := Nat.div_le_self _ _
    omega
  rw [hhalf] at h3
  have hQ : value qr.1 ≤ value qr.1 * value rhs := Nat.le_mul_of_pos_right _ hpos
  have hq1 : value (operator_shl_assign qr.1 uint128_1) = 2 * value qr.1 := by
    rw [value_shl_one h1]
    omega
  have hr1 : value (operator_shl_assign qr.2 uint128_1) = 2 * value qr.2 := by
    rw [value_shl_one h2]
    omega
  have wq1 : wf (operator_shl_assign qr.1 uint128_1) := wf_shl h1 _
  have wr1 : wf (operator_shl_assign qr.2 uint128_1) := wf_shl h2 _
  have hbit := bit_test hl hx
  have hmul : (2 * value qr.1 + 1) * value rhs
      = 2 * (value qr.1 * value rhs) + value rhs := by ring
  have hmul0 : 2 * value qr.1 * value rhs = 2 * (value qr.1 * value rhs) := by ring
  refine ⟨hq1, hr1, by omega, by omega, ?_⟩
  simp only [divmodBody]
  by_cases hb : operator_bool (operator_and_T (operator_shr_T lhs x) 1) = true
  · -- the bit of the dividend is set
    have hb1 := hbit.mp hb
    have wr2 := wf_inc (operator_shl_assign qr.2 uint128_1)
    have hr2 : value (operator_inc (operator_shl_assign qr.2 uint128_1))
        = 2 * value qr.2 + 1 := by
      rw [value_inc wr1, hr1]
      omega
    simp only [if_pos hb]
    by_cases hge : operator_ge (operator_inc (operator_shl_assign qr.2 uint128_1)) rhs = true
    · -- the divisor is subtracted
      have hge1 := (ge_iff_value wr2 hr).mp hge
      rw [hr2] at hge1
      have hq3 : value (operator_inc (operator_shl_assign qr.1 uint128_1))
          = 2 * value qr.1 + 1 := by
        rw [value_inc wq1, hq1]
        omega
      have hr3 : value (operator_sub_assign
          (operator_inc (operator_shl_assign qr.2 uint128_1)) rhs)
          = 2 * value qr.2 + 1 - value rhs := by
        rw [operator_sub_assign, value_sub wr2 hr, hr2]
        omega
      have c : value rhs ≤ 2 * value qr.2 + (value lhs / 2 ^ x) % 2 := by omega
      simp only [if_pos hge, if_pos c]
      refine ⟨wf_inc _, wf_sub _ _, hq3, ?_, ?_, ?_⟩
      · rw [hr3]
        omega
      · rw [hr3]
        omega
      · rw [hq3, hr3, hmul]
        omega
    · -- the remainder stays below the divisor
      have hlt : ¬ value (operator_inc (operator_shl_assign qr.2 uint128_1)) ≥ value rhs :=
        fun h => hge ((ge_iff_value wr2 hr).mpr h)
      rw [hr2] at hlt
      have c : ¬ value rhs ≤ 2 * value qr.2 + (value lhs / 2 ^ x) % 2 := by omega
      simp only [if_neg hge, if_neg c]
      refine ⟨wq1, wr2, by rw [hq1]; omega, by rw [hr2]; omega, by rw [hr2]; omega, ?_⟩
      rw [hq1, hr2, hmul0]
      omega
  · -- the bit of the dividend is clear
    have hb0 : ¬ (value lhs / 2 ^ x) % 2 = 1 := fun h => hb (hbit.mpr h)
    simp only [if_neg hb]
    by_cases hge : operator_ge (operator_shl_assign qr.2 uint128_1) rhs = true
    · -- the divisor is subtracted
      have hge1 := (ge_iff_value wr1 hr).mp hge
      rw [hr1] at hge1
      have hq3 : value (operator_inc (operator_shl_assign qr.1 uint128_1))
          = 2 * value qr.1 + 1 := by
        rw [value_inc wq1, hq1]
        omega
      have hr3 : value (operator_sub_assign (operator_shl_assign qr.2 uint128_1) rhs)
          = 2 * value qr.2 - value rhs := by
        rw [operator_sub_assign, value_sub wr1 hr, hr1]
        omega
      have c : value rhs ≤ 2 * value qr.2 + (value lhs / 2 ^ x) % 2 := by omega
      simp only [if_pos hge, if_pos c]
      refine ⟨wf_inc _, wf_sub _ _, hq3, ?_, ?_, ?_⟩
      · rw [hr3]
        omega
      · rw [hr3]
        omega
      · rw [hq3, hr3, hmul]
        omega
    · -- the remainder stays below the divisor
      have hlt : ¬ value (operator_shl_assign qr.2 uint128_1) ≥ value rhs :=
        fun h => hge ((ge_iff_value wr1 hr).mpr h)
      rw [hr1] at hlt
      have c : ¬ value rhs ≤ 2 * value qr.2 + (value lhs / 2 ^ x) % 2 := by omega
      simp only [if_neg hge, if_neg c]
      refine ⟨wq1, wr1, by rw [hq1]; omega, by rw [hr1]; omega, by rw [hr1]; omega, ?_⟩
      rw [hq1, hr1, hmul0]
      omega

theorem divmodAfter_inv {lhs rhs : uint128_t} (hl : wf lhs) (hr : wf rhs)
    (hpos : 0 < value rhs) :
    ∀ k, k ≤ bits lhs →
      wf (divmodAfter lhs rhs (bits lhs) k).1 ∧ wf (divmodAfter lhs rhs (bits lhs) k).2 ∧
      value (divmodAfter lhs rhs (bits lhs) k).2 < value rhs ∧
      value (divmodAfter lhs rhs (bits lhs) k).1 * value rhs
        + value (divmodAfter lhs rhs (bits lhs) k).2 = value lhs / 2 ^ (bits lhs - k) := by
  have hbits := bits_le hl
  intro k
  induction k with
  | zero =>
    intro _
    refine ⟨wf_uint128_0, wf_uint128_0, by simpa [divmodAfter, value_uint128_0] using hpos, ?_⟩
    rw [Nat.sub_zero, Nat.div_eq_of_lt (value_lt_pow_bits hl)]
    simp [divmodAfter, value_uint128_0]
  | succ k ih =>
    intro hk
    obtain ⟨w1, w2, hlt, hinv⟩ := ih (by omega)
    have e : bits lhs - k = (bits lhs - (k + 1)) + 1 := by omega
    rw [e] at hinv
    obtain ⟨_, _, _, _, w1', w2', _, _, hlt', hinv'⟩ :=
      divmodBody_step hl hr hpos (by omega : bits lhs - (k + 1) < 128) w1 w2 hinv hlt
    exact ⟨w1', w2', hlt', hinv'⟩

theorem eq_iff_value {a b : uint128_t} (ha : wf a) (hb : wf b) :
    operator_eq a b = true ↔ value a = value b := by
  rw [eq_iff]
  exact ⟨fun h => by rw [h], eq_of_value_eq ha hb⟩

theorem divmod_guards {a b : uint128_t} (ha : wf a) (hb : wf b) :
    (operator_eq b uint128_0 = false ∧ operator_eq b uint128_1 = false ∧
      operator_eq a b = false ∧ (operator_eq a uint128_0 || operator_lt a b) = false)
    ↔ (2 ≤ value b ∧ value b < value a) := by
  simp only [← Bool.not_eq_true, Bool.or_eq_true, eq_iff_value hb wf_uint128_0,
    eq_iff_value hb wf_uint128_1, eq_iff_value ha hb, eq_iff_value ha wf_uint128_0,
    lt_iff_value ha hb, value_uint128_0, value_uint128_1]
  omega

/-- C25: for well-formed `a` and `b`, `divmod` reaches its loop exactly when
`value b >= 2` and `value a > value b`. Then the loop starts with the counter `bits a`,
at most 128, and the pair `(0, 0)`, runs one body per counter value down to 1, and its
result is the pair after `bits a` iterations. After `k` iterations, the last of which
read bit `bits a - k` of `a`, the remainder is below `b` and
`quotient * b + remainder = floor(value a / 2 ^ (bits a - k))` as natural numbers. In
iteration `k + 1` nothing wraps: the two left shifts give exactly `2 * quotient` and
`2 * remainder`, `2 * quotient + 1` and `2 * remainder + bit` stay below `2 ^ 128`, and
the new pair is `2 * quotient + c` and `2 * remainder + bit - c * b`, with `c = 1`
exactly when `b <= 2 * remainder + bit`. -/
theorem divmod_loop_invariant (a b : uint128_t) (ha : wf a) (hb : wf b) :
    ((operator_eq b uint128_0 = false ∧ operator_eq b uint128_1 = false ∧
        operator_eq a b = false ∧ (operator_eq a uint128_0 || operator_lt a b) = false)
      ↔ (2 ≤ value b ∧ value b < value a)) ∧
    (2 ≤ value b → value b < value a →
      bits a ≤ 128 ∧
      divmod a b = .ok (divmodLoop a b (bits a) (uint128_0, uint128_0)) ∧
      (∀ x qr, divmodLoop a b (x + 1) qr = divmodLoop a b x (divmodBody a b x qr)) ∧
      (∀ qr, divmodLoop a b 0 qr = qr) ∧
      divmodLoop a b (bits a) (uint128_0, uint128_0) = divmodAfter a b (bits a) (bits a) ∧
      (∀ k, k ≤ bits a →
        wf (divmodAfter a b (bits a) k).1 ∧ wf (divmodAfter a b (bits a) k).2 ∧
        value (divmodAfter a b (bits a) k).2 < value b ∧
        value (divmodAfter a b (bits a) k).1 * value b
          + value (divmodAfter a b (bits a) k).2 = value a / 2 ^ (bits a - k)) ∧
      (∀ k, k < bits a →
        value (operator_shl_assign (divmodAfter a b (bits a) k).1 uint128_1)
          = 2 * value (divmodAfter a b (bits a) k).1 ∧
        value (operator_shl_assign (divmodAfter a b (bits a) k).2 uint128_1)
          = 2 * value (divmodAfter a b (bits a) k).2 ∧
        2 * value (divmodAfter a b (bits a) k).1 + 1 < 2 ^ 128 ∧
        2 * value (divmodAfter a b (bits a) k).2
          + (value a / 2 ^ (bits a - (k + 1))) % 2 < 2 ^ 128 ∧
        value (divmodAfter a b (bits a) (k + 1)).1
          = 2 * value (divmodAfter a b (bits a) k).1
            + (if value b ≤ 2 * value (divmodAfter a b (bits a) k).2
                  + (value a / 2 ^ (bits a - (k + 1))) % 2 then 1 else 0) ∧
        value (divmodAfter a b (bits a) (k + 1)).2
            + (if value b ≤ 2 * value (divmodAfter a b (bits a) k).2
                  + (value a / 2 ^ (bits a - (k + 1))) % 2 then value b else 0)
          = 2 * value (divmodAfter a b (bits a) k).2
            + (value a / 2 ^ (bits a - (k + 1))) % 2)) := by
  refine ⟨divmod_guards ha hb, ?_⟩
  intro hb2 hab
  have hpos : 0 < value b := by omega
  have hbits := bits_le ha
  obtain ⟨g0, g1, g2, g3⟩ := (divmod_guards ha hb).mpr ⟨hb2, hab⟩
  refine ⟨hbits, ?_, divmodLoop_succ a b, fun _ => rfl, ?_, divmodAfter_inv ha hb hpos, ?_⟩
  · simp only [divmod, g0, g1, g2, g3, Bool.false_eq_true, if_false]
  · have := divmodLoop_after a b (bits a) (bits a) (Nat.le_refl _)
    rw [Nat.sub_self] at this
    exact this
  · intro k hk
    obtain ⟨w1, w2, hlt, hinv⟩ := divmodAfter_inv ha hb hpos k (by omega)
    have e : bits a - k = (bits a - (k + 1)) + 1 := by omega
    rw [e] at hinv
    obtain ⟨s1, s2, s3, s4, _, _, s5, s6, _, _⟩ :=
      divmodBody_step ha hb hpos (by omega : bits a - (k + 1) < 128) w1 w2 hinv hlt
    exact ⟨s1, s2, s3, s4, s5, s6⟩

theorem divmod_loop_invariant_witness :
    wf ⟨1, 7⟩ ∧ wf ⟨0, 3⟩ ∧ 2 ≤ value ⟨0, 3⟩ ∧ value ⟨0, 3⟩ < value ⟨1, 7⟩ ∧
    bits ⟨1, 7⟩ ≤ 128 ∧
    divmod ⟨1, 7⟩ ⟨0, 3⟩
      = .ok (divmodLoop ⟨1, 7⟩ ⟨0, 3⟩ (bits ⟨1, 7⟩) (uint128_0, uint128_0)) ∧
    ∀ k, k ≤ bits ⟨1, 7⟩ →
      value (divmodAfter ⟨1, 7⟩ ⟨0, 3⟩ (bits ⟨1, 7⟩) k).2 < value ⟨0, 3⟩ ∧
      value (divmodAfter ⟨1, 7⟩ ⟨0, 3⟩ (bits ⟨1, 7⟩) k).1 * value ⟨0, 3⟩
        + value (divmodAfter ⟨1, 7⟩ ⟨0, 3⟩ (bits ⟨1, 7⟩) k).2
        = value ⟨1, 7⟩ / 2 ^ (bits ⟨1, 7⟩ - k) :=
  have h := (divmod_loop_invariant ⟨1, 7⟩ ⟨0, 3⟩ (by decide) (by decide)).2
    (by decide) (by decide)
  ⟨by decide, by decide, by decide, by decide, h.1, h.2.1,
    fun k hk => (h.2.2.2.2.2.1 k hk).2.2⟩

theorem add_T_eq_add (a : uint128_t) (n : Nat) :
    operator_add_T a n = operator_add a (ofT n) := by
  simp only [operator_add_T, operator_add, ofT, add64, b2n]
  congr 1
  split_ifs <;> omega


/-- C26 (code): with the native operand bound to the receiver's own high limb, `&=` and
`+=` do not leave what the binary operator returns. For `a = (5, 7)`, `a &= a.upper()`
leaves `(0, 0)` where `a & a.upper()` is `(0, 5)`: `UPPER = 0` is written before
`LOWER &= rhs` reads `rhs`. For `a = (3, 2 ^ 64 - 1)`, `a += a.upper()` leaves `(4, 3)`
where `a + a.upper()` is `(4, 2)`: the carry is added to `UPPER` before
`LOWER = LOWER + rhs` reads `rhs`. -/
theorem compound_assign_upper_alias :
    operator_and_assign_T ⟨5, 7⟩ NativeRef.upper = ⟨0, 0⟩ ∧
    operator_and_T ⟨5, 7⟩ (deref ⟨5, 7⟩ NativeRef.upper) = ⟨0, 5⟩ ∧
    operator_eq (operator_and_assign_T ⟨5, 7⟩ NativeRef.upper)
      (operator_and_T ⟨5, 7⟩ (deref ⟨5, 7⟩ NativeRef.upper)) = false ∧
    operator_add_assign_T ⟨3, 2 ^ 64 - 1⟩ NativeRef.upper = ⟨4, 3⟩ ∧
    operator_add_T ⟨3, 2 ^ 64 - 1⟩ (deref ⟨3, 2 ^ 64 - 1⟩ NativeRef.upper) = ⟨4, 2⟩ ∧
    operator_eq (operator_add_assign_T ⟨3, 2 ^ 64 - 1⟩ NativeRef.upper)
      (operator_add_T ⟨3, 2 ^ 64 - 1⟩ (deref ⟨3, 2 ^ 64 - 1⟩ NativeRef.upper)) = false := by
  decide

/-- Compound assignment where it agrees with the binary operator. For all `a` and `b`
the 128-bit `&=`, `|=`, `^=`, `+=`, `-=`, `*=`, `<<=`, `>>=`, `/=`, `%=` leave
`a op b`, and `a &= a`, `a |= a`, `a ^= a`, `a += a` leave `a op a`. For every native
operand `r`, also one bound to a limb of the receiver, `|=`, `^=`, `-=`, `*=`, `<<=`,
`>>=`, `/=`, `%=` leave what the binary operator returns on the value `r` held before
the call; `&=` and `+=` do so for every `r` that is not the receiver's `UPPER`. The
native `&=` zeroes the high limb, `|=` and `^=` keep it, and `+=` carries into it. -/
theorem compound_assignment (a b : uint128_t) (r : NativeRef) :
    (operator_and_assign a b = operator_and a b ∧
      operator_or_assign a b = operator_or a b ∧
      operator_xor_assign a b = operator_xor a b ∧
      operator_add_assign a b = operator_add a b ∧
      operator_sub_assign a b = operator_sub a b ∧
      operator_mul_assign a b = operator_mul a b ∧
      operator_shl_assign a b = operator_shl a b ∧
      operator_shr_assign a b = operator_shr a b ∧
      operator_div_assign a b = operator_div a b ∧
      operator_mod_assign a b = operator_mod a b) ∧
    (operator_and_assign_self a = operator_and a a ∧
      operator_or_assign_self a = operator_or a a ∧
      operator_xor_assign_self a = operator_xor a a ∧
      operator_add_assign_self a = operator_add a a) ∧
    (operator_or_assign_T a r = operator_or_T a (deref a r) ∧
      operator_xor_assign_T a r = operator_xor_T a (deref a r) ∧
      operator_sub_assign_T a r = operator_sub_T a (deref a r) ∧
      operator_mul_assign_T a r = operator_mul_T a (deref a r) ∧
      operator_shl_assign_T a r = operator_shl_T a (deref a r) ∧
      operator_shr_assign_T a r = operator_shr_T a (deref a r) ∧
      operator_div_assign_T a r = operator_div_T a (deref a r) ∧
      operator_mod_assign_T a r = operator_mod_T a (deref a r)) ∧
    (r ≠ NativeRef.upper →
      operator_and_assign_T a r = operator_and_T a (deref a r) ∧
      operator_add_assign_T a r = operator_add_T a (deref a r) ∧
      (wf a → value (operator_add_assign_T a r)
        = (value a + deref a r % 2 ^ 64) % 2 ^ 128)) ∧
    ((operator_and_assign_T a r).UPPER = 0 ∧
      (operator_or_assign_T a r).UPPER = a.UPPER ∧
      (operator_xor_assign_T a r).UPPER = a.UPPER) ∧
    (wf a → wf b → b ≠ uint128_0 →
      ∃ q s, operator_div_assign a b = .ok q ∧ operator_mod_assign a b = .ok s ∧
        value q = value a / value b ∧ value s = value a % value b) := by
  have hand : r ≠ NativeRef.upper →
      operator_and_assign_T a r = operator_and_T a (deref a r) := by
    intro h
    cases r with
    | other n => rfl
    | upper => exact absurd rfl h
    | lower => rfl
  have hadd : r ≠ NativeRef.upper →
      operator_add_assign_T a r = operator_add_T a (deref a r) := by
    intro h
    cases r with
    | other n => rfl
    | upper => exact absurd rfl h
    | lower => rfl
  refine ⟨⟨rfl, rfl, rfl, add_assign_eq_add a b, rfl, rfl, rfl, rfl, rfl, rfl⟩,
    ⟨rfl, rfl, rfl, ?_⟩, ⟨rfl, rfl, rfl, rfl, rfl, rfl, rfl, rfl⟩, ?_, ⟨rfl, rfl, rfl⟩, ?_⟩
  · simp only [operator_add_assign_self, operator_add, add64]
    congr 1
    omega
  · intro h
    refine ⟨hand h, hadd h, ?_⟩
    intro ha
    have hv : value (ofT (deref a r)) = deref a r % 2 ^ 64 := by simp [value, ofT]
    rw [hadd h, add_T_eq_add, value_add ha (wf_ofT _), hv]
  · intro ha hb hne
    obtain ⟨q, s, hd, _, _, hq, hs⟩ := divmod_spec ha hb hne
    refine ⟨q, s, ?_, ?_, hq, hs⟩
    · simp only [operator_div_assign, operator_div, hd]
      rfl
    · simp only [operator_mod_assign, operator_mod, hd]
      rfl

end uint128_t

end ap_uint
